import Mathlib

/-!
Verification of the paxcord execution-and-presentation supervisor.

This file gives a shallow embedding of the core of the repository:

* the chunker `chunk_message` (src/outputter.rs:307-326);
* the message synchronizer and terminal transitions of `Outputter`
  (src/outputter.rs:110-288), together with its select loop `run`
  (src/outputter.rs:127-170) driven by an explicit event schedule;
* the supervisor loop of `execute_lua_thread` (src/lua/executor.rs:19-134).

Rust strings are modelled as lists of characters (`Str`); Rust `len()` is the
character count, which agrees with the byte count on the ASCII inputs the
properties are exercised at.  Time is an explicit natural number of
milliseconds.  Fallible code (the `.unwrap()` panic in the message-creation
loop) is modelled with `Option`.
-/

set_option maxHeartbeats 1000000
set_option maxRecDepth 100000

/-- Characters of a Rust `String`/`&str`, modelled as a list of `Char`. -/
abbrev Str := List Char

namespace Paxcord

/-! ### Chunker (src/outputter.rs:307-326) -/

/-- One iteration of the word loop in `chunk_message` (src/outputter.rs:310-323):
if the last chunk's length already exceeds `chunk_size`, start a new chunk
holding `word`; otherwise append `word` to the last chunk, preceded by a space
when the chunk is non-empty.  The `none` arm mirrors the `else continue` of
`let Some(last) = chunks.last_mut()`. -/
def chunkStep (chunk_size : Nat) (chunks : List Str) (word : Str) : List Str :=
  match chunks.getLast? with
  | none => chunks
  | some last =>
    if last.length > chunk_size then
      chunks ++ [word]
    else
      chunks.dropLast ++ [if last.isEmpty then word else last ++ ' ' :: word]

/-- src/outputter.rs:307-326 `chunk_message`: split `message` on single spaces
and fold the words into chunks, starting from one empty chunk. -/
def chunk_message (message : Str) (chunk_size : Nat) : List Str :=
  (message.splitOn ' ').foldl (chunkStep chunk_size) [[]]

/-- Tail view of the chunking loop: `cur` is the chunk currently being filled,
completed chunks are emitted to the left.  Used to reason about
`chunk_message` by structural induction. -/
def chunkCore (chunk_size : Nat) (cur : Str) : List Str → List Str
  | [] => [cur]
  | w :: ws =>
    if cur.length > chunk_size then
      cur :: chunkCore chunk_size w ws
    else
      chunkCore chunk_size (if cur.isEmpty then w else cur ++ ' ' :: w) ws

/-- src/outputter.rs:125 `Outputter::MESSAGE_CHUNK_SIZE`. -/
def MESSAGE_CHUNK_SIZE : Nat := 1500

/-- The non-empty space-separated words of a string, in order. -/
def wordsOf (s : Str) : List Str :=
  (s.splitOn ' ').filter (fun w => !w.isEmpty)

/-- The non-empty words of a chunk list, in order. -/
def wordsOfChunks (chunks : List Str) : List Str :=
  (chunks.flatMap (fun c => c.splitOn ' ')).filter (fun w => !w.isEmpty)

/-- Modelled from the spec: re-joining the chunks with single spaces
(spec section 8, chunk invariant). -/
def rejoinChunks : List Str → Str
  | [] => []
  | [c] => c
  | c :: cs => c ++ ' ' :: rejoinChunks cs

/-- Modelled from the spec: the whitespace-normalized form of a text — its
non-empty words joined by single spaces (runs of spaces, leading and trailing
spaces collapsed away). -/
def whitespaceNormalized (s : Str) : Str :=
  rejoinChunks (wordsOf s)

/-- Length of the longest space-separated word of `s`. -/
def maxWordLen (s : Str) : Nat :=
  ((s.splitOn ' ').map List.length).foldr max 0

/-! ### Outputter data model (src/outputter.rs:110-122) -/

/-- src/lua/extensions/globals.rs:8-11 `Attachment`: a filename and binary
data (bytes as naturals). -/
structure Attachment where
  filename : Str
  data : List Nat
deriving DecidableEq

/-- A message component.  Modelled from the spec: `crate::cancel::add_button`
(src/cancel.rs is not among the provided sources) attaches one cancel-button
component keyed by the anchor message id and the owning user id. -/
inductive Component
  | cancelButton (anchor_id : Nat) (user_id : Nat)
deriving DecidableEq

/-- One chat message tracked by the outputter: its id, current content,
components, and file attachments. -/
structure Msg where
  id : Nat
  content : Str
  components : List Component
  attachments : List Attachment
deriving DecidableEq

/-- src/outputter.rs:12-18 `OutputterCommand`. -/
inductive OutputterCommand
  | Update (message : Str)
  | AddAttachment (attachment : Attachment)
  | Error (err : Str)
  | Cancelled
  | Finish
deriving DecidableEq

/-- State of the spawned `Outputter` task (src/outputter.rs:110-122).
`posted_replies` records the contents of the reply messages created by
`on_error`, which the outputter does not keep in `messages` but which stay
visible in the channel; `next_id` models the chat transport assigning fresh
message ids.  Times are in milliseconds. -/
structure OutputterState where
  user_id : Nat
  messages : List Msg
  chunks : List Str
  pending_attachments : List Attachment
  in_terminal_state : Bool
  last_update : Nat
  last_update_duration : Nat
  posted_replies : List Str
  next_id : Nat
deriving DecidableEq

namespace Outputter

/-- Phase one of `sync_messages_with_chunks` (src/outputter.rs:222-226): edit
each message that has a corresponding chunk to that chunk's content. -/
def editContents : List Msg → List Str → List Msg
  | [], _ => []
  | ms, [] => ms
  | m :: ms, c :: cs => { m with content := c } :: editContents ms cs

/-- The message-creation loop of `sync_messages_with_chunks`
(src/outputter.rs:245-250): for every remaining chunk, reply to the current
last message.  `none` models the `.unwrap()` panic when there is no last
message to reply to. -/
def createReplies (next_id : Nat) (msgs : List Msg) : List Str → Option (List Msg × Nat)
  | [] => some (msgs, next_id)
  | c :: cs =>
    match msgs.getLast? with
    | none => none
    | some _ => createReplies (next_id + 1) (msgs ++ [⟨next_id, c, [], []⟩]) cs

/-- `EditMessage::new().components(vec![])`: strip all components. -/
def stripComponents (m : Msg) : Msg :=
  { m with components := [] }

/-- src/outputter.rs:258-263: add the cancel button to the last message if it
currently has no components (`cancel::add_button` modelled from the spec as
attaching the component keyed by the anchor id and the user id). -/
def addCancelButton (first_id user_id : Nat) (msgs : List Msg) : List Msg :=
  match msgs.getLast? with
  | none => msgs
  | some last =>
    if last.components.isEmpty then
      msgs.dropLast ++ [{ last with components := [Component.cancelButton first_id user_id] }]
    else msgs

/-- src/outputter.rs:221-266 `sync_messages_with_chunks`: edit the common
prefix, delete surplus messages, otherwise strip components and create reply
messages for surplus chunks, then re-attach the cancel button to the last
message when not terminal.  `none` models the panic in the creation loop. -/
def sync_messages_with_chunks (st : OutputterState) : Option OutputterState :=
  let msgs1 := editContents st.messages st.chunks
  let created :=
    if st.chunks.length < msgs1.length then
      some (msgs1.take st.chunks.length, st.next_id)
    else if st.chunks.length > msgs1.length then
      createReplies st.next_id (msgs1.map stripComponents) (st.chunks.drop msgs1.length)
    else
      some (msgs1, st.next_id)
  match created with
  | none => none
  | some (msgs2, nid) =>
    match msgs2.head? with
    | none => some { st with messages := msgs2, next_id := nid }
    | some first =>
      let msgs3 :=
        if st.in_terminal_state then msgs2
        else addCancelButton first.id st.user_id msgs2
      some { st with messages := msgs3, next_id := nid }

/-- The value of the `created` stage of `sync_messages_with_chunks`: the
message list after editing, deleting or creating, together with the next
fresh id. -/
def createdStage (st : OutputterState) : Option (List Msg × Nat) :=
  if st.chunks.length < (editContents st.messages st.chunks).length then
    some ((editContents st.messages st.chunks).take st.chunks.length, st.next_id)
  else if st.chunks.length > (editContents st.messages st.chunks).length then
    createReplies st.next_id ((editContents st.messages st.chunks).map stripComponents)
      (st.chunks.drop (editContents st.messages st.chunks).length)
  else
    some (editContents st.messages st.chunks, st.next_id)

/-- The contents of a synced state's messages, when the sync completes. -/
def syncedContents (st : OutputterState) : Option (List Str) :=
  (sync_messages_with_chunks st).map fun s => s.messages.map Msg.content

/-- The number of messages after a sync, when the sync completes. -/
def syncedCount (st : OutputterState) : Option Nat :=
  (sync_messages_with_chunks st).map fun s => s.messages.length

/-- src/outputter.rs:268-287 `on_error`: strike through every tracked
message's content, strip its components, mark the state terminal, and post
one untracked reply carrying the error or cancellation notice. -/
def on_error (st : OutputterState) (error_message : Str) : OutputterState :=
  let msgs := st.messages.map fun m =>
    { m with components := ([] : List Component)
           , content := '~' :: '~' :: (m.content ++ ['~', '~']) }
  if msgs.isEmpty then
    { st with messages := msgs, in_terminal_state := true }
  else
    { st with messages := msgs, in_terminal_state := true
            , posted_replies := st.posted_replies ++ [error_message]
            , next_id := st.next_id + 1 }

/-- The attachment flush at the end of `finish` (src/outputter.rs:208-216):
if attachments are pending and a last message exists, move them onto it. -/
def flushAttachments (st : OutputterState) : OutputterState :=
  if st.pending_attachments.isEmpty then st
  else
    match st.messages.getLast? with
    | none => st
    | some last =>
      { st with
          messages := st.messages.dropLast ++
            [{ last with attachments := last.attachments ++ st.pending_attachments }]
          pending_attachments := [] }

/-- src/outputter.rs:198-219 `finish`: strip every component, mark the state
terminal, run one final sync, then flush the buffered attachments. -/
def finish (st : OutputterState) : Option OutputterState :=
  let st1 := { st with messages := st.messages.map stripComponents
                     , in_terminal_state := true }
  match sync_messages_with_chunks st1 with
  | none => none
  | some st2 => some (flushAttachments st2)

/-- src/outputter.rs:178-189 `sync_if_pending` at current time `now`: no sync
when terminal; otherwise sync only when at least `last_update_duration` has
elapsed since `last_update`, and record the issue time.  Each returned record
is an issued sync call `(time, was terminal)`. -/
def sync_if_pending (now : Nat) (st : OutputterState) :
    Option (OutputterState × List (Nat × Bool)) :=
  if st.in_terminal_state then some (st, [])
  else if st.last_update_duration ≤ now - st.last_update then
    match sync_messages_with_chunks st with
    | none => none
    | some st2 => some ({ st2 with last_update := now }, [(now, false)])
  else some (st, [])

/-- src/outputter.rs:172-175 `update`: re-chunk the whole message and sync if
past the rate-limit threshold. -/
def update (now : Nat) (message : Str) (st : OutputterState) :
    Option (OutputterState × List (Nat × Bool)) :=
  sync_if_pending now { st with chunks := chunk_message message MESSAGE_CHUNK_SIZE }

/-- src/outputter.rs:191-196 `add_attachment`. -/
def add_attachment (st : OutputterState) (a : Attachment) : OutputterState :=
  { st with pending_attachments := st.pending_attachments ++ [a] }

end Outputter

/-- One event consumed by the outputter's select loop (src/outputter.rs:133-166):
a command received from the handle, or a tick of the sync interval timer. -/
inductive OutEvent
  | cmd (c : OutputterCommand)
  | tick
deriving DecidableEq

namespace Outputter

/-- One iteration of `Outputter::run`'s select loop (src/outputter.rs:133-166),
for an event arriving at time `now`.  Returns the new state and the sync calls
issued to the chat transport, or `none` on a panic. -/
def stepOut (st : OutputterState) : Nat × OutEvent → Option (OutputterState × List (Nat × Bool))
  | (now, OutEvent.cmd (OutputterCommand.Update message)) => update now message st
  | (_, OutEvent.cmd (OutputterCommand.AddAttachment a)) => some (add_attachment st a, [])
  | (_, OutEvent.cmd (OutputterCommand.Error err)) => some (on_error st err, [])
  | (_, OutEvent.cmd OutputterCommand.Cancelled) =>
    some (on_error st ("The generation was cancelled.".data), [])
  | (now, OutEvent.cmd OutputterCommand.Finish) =>
    match finish st with
    | none => none
    | some st2 => some (st2, [(now, true)])
  | (now, OutEvent.tick) => sync_if_pending now st

/-- `Outputter::run` over a finite schedule of timed events (the loop ends
when the command channel closes). -/
def runOut (st : OutputterState) :
    List (Nat × OutEvent) → Option (OutputterState × List (Nat × Bool))
  | [] => some (st, [])
  | e :: es =>
    match stepOut st e with
    | none => none
    | some (st1, recs1) =>
      match runOut st1 es with
      | none => none
      | some (st2, recs2) => some (st2, recs1 ++ recs2)

end Outputter

/-- The outputter state created by `OutputterHandle::new` (src/outputter.rs:28-76):
the interaction response is already posted as the single starting message,
with no components; the chunk list starts empty; the clock starts at `t0`. -/
def initOutputter (anchor_id : Nat) (initial_message : Str)
    (user_id t0 dur nid : Nat) : OutputterState :=
  { user_id := user_id
    messages := [⟨anchor_id, initial_message, [], []⟩]
    chunks := []
    pending_attachments := []
    in_terminal_state := false
    last_update := t0
    last_update_duration := dur
    posted_replies := []
    next_id := nid }

/-! ### Supervisor loop of `execute_lua_thread` (src/lua/executor.rs:19-134) -/

/-- One event consumed by the supervisor's select loop
(src/lua/executor.rs:65-117): a cancellation broadcast, a script output,
print or attachment event, or the script thread yielding its completion. -/
inductive LuaEvent
  | cancel (message_id : Nat)
  | outputEv (value : Str)
  | printEv (value : Str)
  | attachmentEv (a : Attachment)
  | threadOk (result : Option Str)
  | threadErr (err : Str)
  | threadDone
deriving DecidableEq

/-- Events on which the supervisor loop exits. -/
def isBreakEvent : LuaEvent → Bool
  | LuaEvent.cancel _ => true
  | LuaEvent.threadErr _ => true
  | LuaEvent.threadDone => true
  | _ => false

/-- Local state of `execute_lua_thread` (src/lua/executor.rs:35-63): the
output aggregator (`Output`), the error flag, the captured thread result, and
the commands sent to the outputter handle so far. -/
structure ExecState where
  output : Str
  print_log : List Str
  errored : Bool
  thread_result : Option Str
  sent : List OutputterCommand
deriving DecidableEq

/-- src/lua/executor.rs:40-50 `Output::to_final_output`: the primary output,
followed by a print-log section when the log is non-empty. -/
def to_final_output (output : Str) (print_log : List Str) : Str :=
  output ++
    if print_log.isEmpty then []
    else "\n**Print Log**\n".data ++ print_log.flatMap (fun p => p ++ ['\n'])

/-- The rendered body of the executor's aggregated output. -/
def ExecState.render (st : ExecState) : Str :=
  to_final_output st.output st.print_log

/-- One arm of the supervisor's select loop (src/lua/executor.rs:65-117), for
a session anchored at message id `anchor`.  The Bool is `true` when the loop
exits. -/
def execStep (anchor : Nat) (st : ExecState) : LuaEvent → ExecState × Bool
  | LuaEvent.cancel cid =>
    if cid = anchor then
      ({ st with sent := st.sent ++ [OutputterCommand.Cancelled], errored := true }, true)
    else (st, true)
  | LuaEvent.outputEv v =>
    let st1 := { st with output := v }
    ({ st1 with sent := st1.sent ++ [OutputterCommand.Update st1.render] }, false)
  | LuaEvent.printEv v =>
    let st1 := { st with print_log := st.print_log ++ [v] }
    ({ st1 with sent := st1.sent ++ [OutputterCommand.Update st1.render] }, false)
  | LuaEvent.attachmentEv a =>
    ({ st with sent := st.sent ++ [OutputterCommand.AddAttachment a] }, false)
  | LuaEvent.threadOk r =>
    let st1 :=
      match r with
      | some v => { st with thread_result := some v }
      | none => st
    ({ st1 with sent := st1.sent ++ [OutputterCommand.Update st1.render] }, false)
  | LuaEvent.threadErr e =>
    ({ st with sent := st.sent ++ [OutputterCommand.Error e], errored := true }, true)
  | LuaEvent.threadDone => (st, true)

/-- The select loop over a finite event schedule; returns the state and
whether the loop exited (rather than running out of scheduled events while
still blocked in the select). -/
def execLoop (anchor : Nat) (st : ExecState) : List LuaEvent → ExecState × Bool
  | [] => (st, false)
  | e :: es =>
    let (st1, brk) := execStep anchor st e
    if brk then (st1, true) else execLoop anchor st1 es

/-- src/lua/executor.rs:120-129: unless a script error or matching
cancellation occurred, adopt the thread's return value as the primary output
if no non-empty output had been set, then tell the outputter to finish. -/
def execFinalize (st : ExecState) : ExecState :=
  if st.errored then st
  else
    let st1 :=
      if st.output.isEmpty then
        match st.thread_result with
        | some r =>
          let st2 := { st with output := r }
          { st2 with sent := st2.sent ++ [OutputterCommand.Update st2.render] }
        | none => st
      else st
    { st1 with sent := st1.sent ++ [OutputterCommand.Finish] }

/-- The starting executor state (src/lua/executor.rs:52-58). -/
def initExec : ExecState :=
  { output := [], print_log := [], errored := false, thread_result := none, sent := [] }

/-- `execute_lua_thread` run over a finite event schedule.  When the loop
exits, the post-loop adoption and finish logic runs; when the schedule is
exhausted without an exit the real loop is still blocked, so it does not. -/
def executeRun (anchor : Nat) (events : List LuaEvent) : ExecState :=
  let (st, brk) := execLoop anchor initExec events
  if brk then execFinalize st else st

/-- The value of `output.output` after the loop on an exit-free schedule: the
payload of the last explicit output event, or the empty string. -/
def lastOutputPayload (events : List LuaEvent) : Str :=
  events.foldl
    (fun acc e => match e with | LuaEvent.outputEv v => v | _ => acc) []

/-- The last value the thread yielded as `Some(Ok(Some v))`. -/
def lastThreadResult (events : List LuaEvent) : Option Str :=
  events.foldl
    (fun acc e => match e with | LuaEvent.threadOk (some v) => some v | _ => acc) none

/-- The contents carried by the `Update` commands of a command list. -/
def updatePayloads (cmds : List OutputterCommand) : List Str :=
  cmds.filterMap fun c => match c with | OutputterCommand.Update m => some m | _ => none

/-- The content carried by the most recent `Update` command, if any. -/
def lastUpdatePayload (cmds : List OutputterCommand) : Option Str :=
  (updatePayloads cmds).getLast?

/-- The executor's outgoing-content invariant: the most recent `Update`
command carries the render of the current aggregator state, unless no update
has been sent yet and the aggregator is still empty. -/
def updInv (st : ExecState) : Prop :=
  lastUpdatePayload st.sent = some st.render ∨
    (lastUpdatePayload st.sent = none ∧ st.output = [] ∧ st.print_log = [])

/-! ### Invariant of claim C3 -/

/-- All messages except possibly the last carry no components. -/
def compsOk : List Msg → Prop
  | [] => True
  | [_] => True
  | m :: ms => m.components = [] ∧ compsOk ms

/-- The cancel-affordance invariant of the outputter: at most one message
carries components, only the last message may carry any, a carried component
is a single cancel button, and a terminal state carries none at all. -/
def cancelAffordanceOk (st : OutputterState) : Prop :=
  (st.messages.filter (fun m => !m.components.isEmpty)).length ≤ 1 ∧
  (∀ m ∈ st.messages.dropLast, m.components = []) ∧
  (∀ m ∈ st.messages, m.components = [] ∨
    ∃ a u, m.components = [Component.cancelButton a u]) ∧
  (st.in_terminal_state = true → ∀ m ∈ st.messages, m.components = [])

end Paxcord

namespace Paxcord

/-! ### Chunker lemmas -/

theorem chunkStep_concat (k : Nat) (done : List Str) (cur w : Str) :
    chunkStep k (done ++ [cur]) w =
      if cur.length > k then (done ++ [cur]) ++ [w]
      else done ++ [if cur.isEmpty then w else cur ++ ' ' :: w] := by
  simp only [chunkStep, List.getLast?_concat, List.dropLast_concat]

theorem foldl_chunkStep (k : Nat) (ws : List Str) : ∀ (done : List Str) (cur : Str),
    List.foldl (chunkStep k) (done ++ [cur]) ws = done ++ chunkCore k cur ws := by
  induction ws with
  | nil => intro done cur; rfl
  | cons w ws ih =>
    intro done cur
    rw [List.foldl_cons, chunkStep_concat]
    show _ = done ++ chunkCore k cur (w :: ws)
    unfold chunkCore
    by_cases h : cur.length > k
    · rw [if_pos h, if_pos h, ih (done ++ [cur]) w, List.append_assoc]
      rfl
    · rw [if_neg h, if_neg h, ih done _]

theorem chunk_message_eq_core (msg : Str) (k : Nat) :
    chunk_message msg k = chunkCore k [] (msg.splitOn ' ') := by
  have h := foldl_chunkStep k (msg.splitOn ' ') [] []
  simpa [chunk_message] using h

theorem chunkCore_ne_nil (k : Nat) : ∀ (ws : List Str) (cur : Str),
    chunkCore k cur ws ≠ [] := by
  intro ws
  induction ws with
  | nil => intro cur; simp [chunkCore]
  | cons w ws ih =>
    intro cur
    unfold chunkCore
    by_cases h : cur.length > k
    · rw [if_pos h]; simp
    · rw [if_neg h]; exact ih _

theorem le_foldr_max (l : List Nat) : ∀ x ∈ l, x ≤ l.foldr max 0 := by
  induction l with
  | nil => simp
  | cons a l ih =>
    intro x hx
    rw [List.foldr_cons]
    rcases List.mem_cons.mp hx with rfl | hx'
    · exact le_max_left _ _
    · exact le_trans (ih x hx') (le_max_right _ _)

theorem chunkCore_bound (k W : Nat) : ∀ (ws : List Str) (cur : Str),
    (∀ w ∈ ws, w.length ≤ W) → cur.length ≤ k + 1 + W →
    ∀ c ∈ chunkCore k cur ws, c.length ≤ k + 1 + W := by
  intro ws
  induction ws with
  | nil =>
    intro cur _ hcur c hc
    unfold chunkCore at hc
    rw [List.mem_singleton] at hc
    exact hc ▸ hcur
  | cons w ws ih =>
    intro cur hws hcur c hc
    have hw : w.length ≤ W := hws w (List.mem_cons_self w ws)
    have hws' : ∀ w' ∈ ws, w'.length ≤ W :=
      fun w' hw' => hws w' (List.mem_cons_of_mem _ hw')
    unfold chunkCore at hc
    by_cases h : cur.length > k
    · rw [if_pos h] at hc
      rcases List.mem_cons.mp hc with rfl | hc'
      · exact hcur
      · exact ih w hws' (by omega) c hc'
    · rw [if_neg h] at hc
      have hk : cur.length ≤ k := Nat.le_of_not_lt h
      refine ih _ hws' ?_ c hc
      by_cases he : cur.isEmpty
      · rw [if_pos he]; omega
      · rw [if_neg he]; simp only [List.length_append, List.length_cons]; omega

theorem mem_splitOn_word_le_maxWordLen (msg : Str) :
    ∀ w ∈ msg.splitOn ' ', w.length ≤ maxWordLen msg := by
  intro w hw
  exact le_foldr_max _ _ (List.mem_map_of_mem List.length hw)

/-! ### splitOn lemmas for the chunk-rejoin property -/

theorem modifyHead_append_of_ne_nil {α : Type} (f : α → α) (xs ys : List α)
    (h : xs ≠ []) : (xs ++ ys).modifyHead f = xs.modifyHead f ++ ys := by
  cases xs with
  | nil => exact absurd rfl h
  | cons x xs => rfl

theorem splitOn_space_append (l r : Str) :
    (l ++ ' ' :: r).splitOn ' ' = l.splitOn ' ' ++ r.splitOn ' ' := by
  induction l with
  | nil => simp [List.splitOn, List.splitOnP_cons]
  | cons c l ih =>
    show ((c :: (l ++ ' ' :: r)).splitOn ' ') = _
    simp only [List.splitOn, List.splitOnP_cons] at ih ⊢
    by_cases h : c = ' '
    · subst h; simp [ih]
    · have hb : (c == ' ') = false := by simp [h]
      rw [hb]
      simp only [Bool.false_eq_true, if_false]
      rw [ih, modifyHead_append_of_ne_nil _ _ _ (List.splitOnP_ne_nil _ l)]

theorem splitOn_no_space (l : Str) (h : ∀ x ∈ l, x ≠ ' ') : l.splitOn ' ' = [l] := by
  apply List.splitOnP_eq_single
  intro x hx
  simp [h x hx]

theorem mem_splitOn_no_space (l : Str) :
    ∀ piece ∈ l.splitOn ' ', ∀ x ∈ piece, x ≠ ' ' := by
  induction l with
  | nil =>
    intro piece hp
    simp only [List.splitOn, List.splitOnP_nil, List.mem_singleton] at hp
    subst hp
    intro x hx
    exact absurd hx (List.not_mem_nil x)
  | cons c l ih =>
    intro piece hp
    simp only [List.splitOn, List.splitOnP_cons] at hp
    by_cases h : c = ' '
    · subst h
      simp only [beq_self_eq_true, if_true] at hp
      rcases List.mem_cons.mp hp with rfl | hp'
      · intro x hx; exact absurd hx (List.not_mem_nil x)
      · exact ih piece hp'
    · have hb : (c == ' ') = false := by simp [h]
      rw [hb] at hp
      simp only [Bool.false_eq_true, if_false] at hp
      rcases hsp : l.splitOnP (· == ' ') with _ | ⟨h1, t1⟩
      · exact absurd hsp (List.splitOnP_ne_nil _ l)
      · rw [hsp] at hp
        simp only [List.modifyHead] at hp
        rcases List.mem_cons.mp hp with rfl | hp'
        · intro x hx
          rcases List.mem_cons.mp hx with rfl | hx'
          · exact h
          · exact ih h1 (by rw [List.splitOn, hsp]; exact List.mem_cons_self _ _) x hx'
        · exact ih piece (by rw [List.splitOn, hsp]; exact List.mem_cons_of_mem _ hp')

theorem wordsOf_append_space (l r : Str) :
    wordsOf (l ++ ' ' :: r) = wordsOf l ++ wordsOf r := by
  unfold wordsOf
  rw [splitOn_space_append, List.filter_append]

theorem wordsOf_nil : wordsOf [] = [] := rfl

theorem wordsOfChunks_cons (c : Str) (cs : List Str) :
    wordsOfChunks (c :: cs) = wordsOf c ++ wordsOfChunks cs := by
  unfold wordsOfChunks wordsOf
  rw [List.flatMap_cons, List.filter_append]

theorem wordsOfChunks_singleton (c : Str) : wordsOfChunks [c] = wordsOf c := by
  rw [wordsOfChunks_cons]
  simp [wordsOfChunks]

theorem wordsOf_rejoin : ∀ cs : List Str, wordsOf (rejoinChunks cs) = wordsOfChunks cs := by
  intro cs
  induction cs with
  | nil => rfl
  | cons c cs ih =>
    cases cs with
    | nil => rw [wordsOfChunks_singleton]; rfl
    | cons c2 cs2 =>
      show wordsOf (c ++ ' ' :: rejoinChunks (c2 :: cs2)) = _
      rw [wordsOf_append_space, ih, ← wordsOfChunks_cons]

theorem wordsOf_single_word (w : Str) (h : ∀ x ∈ w, x ≠ ' ') :
    wordsOf w = List.filter (fun w' => !w'.isEmpty) [w] := by
  unfold wordsOf
  rw [splitOn_no_space w h]

theorem words_chunkCore (k : Nat) : ∀ (ws : List Str) (cur : Str),
    (∀ w ∈ ws, ∀ x ∈ w, x ≠ ' ') →
    wordsOfChunks (chunkCore k cur ws) =
      wordsOf cur ++ ws.filter (fun w => !w.isEmpty) := by
  intro ws
  induction ws with
  | nil =>
    intro cur _
    unfold chunkCore
    rw [wordsOfChunks_singleton, List.filter_nil, List.append_nil]
  | cons w ws ih =>
    intro cur hws
    have hw : ∀ x ∈ w, x ≠ ' ' := hws w (List.mem_cons_self w ws)
    have hws' : ∀ w' ∈ ws, ∀ x ∈ w', x ≠ ' ' :=
      fun w' hw' => hws w' (List.mem_cons_of_mem _ hw')
    have hfil : List.filter (fun w' => !w'.isEmpty) (w :: ws) =
        wordsOf w ++ ws.filter (fun w' => !w'.isEmpty) := by
      rw [wordsOf_single_word w hw]
      rw [show (w :: ws) = [w] ++ ws from rfl, List.filter_append]
    unfold chunkCore
    by_cases h : cur.length > k
    · rw [if_pos h, wordsOfChunks_cons, ih w hws', hfil]
    · rw [if_neg h, ih _ hws', hfil]
      by_cases he : cur.isEmpty
      · have : cur = [] := by
          cases cur with
          | nil => rfl
          | cons a l => simp [List.isEmpty] at he
        rw [if_pos he, this, wordsOf_nil, List.nil_append]
      · rw [if_neg he, wordsOf_append_space, List.append_assoc]

theorem wordsOfChunks_chunk_message (msg : Str) (k : Nat) :
    wordsOfChunks (chunk_message msg k) = wordsOf msg := by
  rw [chunk_message_eq_core,
    words_chunkCore k (msg.splitOn ' ') [] (mem_splitOn_no_space msg)]
  rw [wordsOf_nil, List.nil_append]
  rfl

/-- C8 counterexample: a single 1501-character word yields a chunk of length
1501, so not every chunk produced by the chunker has length at most the fixed
1500-character budget. -/
theorem c8_budget_counterexample :
    ¬ ∀ c ∈ chunk_message (List.replicate 1501 'a') MESSAGE_CHUNK_SIZE,
        c.length ≤ 1500 := by
  decide

/-- C8 (amended): every chunk produced by `chunk_message` at the fixed
1500-character budget has length at most the budget plus one plus the length
of the longest word of the input; a chunk only rolls over once it already
exceeds the budget, and a single oversized word is never split, so the budget
alone is not an upper bound. -/
theorem chunk_length_le_budget_plus_word (msg : Str) (c : Str)
    (hc : c ∈ chunk_message msg MESSAGE_CHUNK_SIZE) :
    c.length ≤ MESSAGE_CHUNK_SIZE + 1 + maxWordLen msg := by
  rw [chunk_message_eq_core] at hc
  refine chunkCore_bound MESSAGE_CHUNK_SIZE (maxWordLen msg) _ []
    (mem_splitOn_word_le_maxWordLen msg) (by simp) c hc

/-- C8 witness: the amended bound evaluated at the input consisting of the
single word "hi". -/
theorem chunk_length_le_budget_plus_word_witness :
    ('h' :: 'i' :: []) ∈ chunk_message ('h' :: 'i' :: []) MESSAGE_CHUNK_SIZE ∧
      ('h' :: 'i' :: []).length ≤ MESSAGE_CHUNK_SIZE + 1 + maxWordLen ('h' :: 'i' :: []) :=
  ⟨by decide, chunk_length_le_budget_plus_word _ _ (by decide)⟩

/-- C9 counterexample: re-joining the chunks with single spaces recovers
neither the whitespace-normalized input (the doubled space inside
`"a  b"` survives inside its chunk) nor the exact input (the leading space of
`" a"` is lost), refuting the re-join half of the claim under either reading. -/
theorem c9_rejoin_counterexample :
    rejoinChunks (chunk_message ('a' :: ' ' :: ' ' :: 'b' :: []) 1500) ≠
        whitespaceNormalized ('a' :: ' ' :: ' ' :: 'b' :: []) ∧
      rejoinChunks (chunk_message (' ' :: 'a' :: []) 1500) ≠ (' ' :: 'a' :: []) := by
  decide

/-- C9 (amended): for every input and limit the chunker returns at least one
chunk, never splits a word across chunks, and re-joining the chunks with
single spaces preserves the input's sequence of non-empty words exactly
(rather than recovering the whitespace-normalized text: empty words arising
from doubled, leading or trailing spaces may be dropped at chunk starts but
are kept inside a chunk). -/
theorem chunk_invariant (msg : Str) (k : Nat) :
    chunk_message msg k ≠ [] ∧
      wordsOfChunks (chunk_message msg k) = wordsOf msg ∧
      wordsOf (rejoinChunks (chunk_message msg k)) = wordsOf msg := by
  refine ⟨?_, wordsOfChunks_chunk_message msg k, ?_⟩
  · rw [chunk_message_eq_core]
    exact chunkCore_ne_nil k _ []
  · rw [wordsOf_rejoin]
    exact wordsOfChunks_chunk_message msg k

end Paxcord

namespace Paxcord

namespace Outputter

/-! ### Message-synchronizer lemmas -/

theorem editContents_nil_right : ∀ ms : List Msg, editContents ms [] = ms := by
  intro ms
  cases ms <;> rfl

theorem editContents_length : ∀ (ms : List Msg) (cs : List Str),
    (editContents ms cs).length = ms.length := by
  intro ms
  induction ms with
  | nil => intro cs; cases cs <;> rfl
  | cons m ms ih =>
    intro cs
    cases cs with
    | nil => rfl
    | cons c cs => simp [editContents, ih]

theorem editContents_map_content : ∀ (ms : List Msg) (cs : List Str),
    (editContents ms cs).map Msg.content =
      cs.take ms.length ++ (ms.map Msg.content).drop cs.length := by
  intro ms
  induction ms with
  | nil => intro cs; simp [editContents]
  | cons m ms ih =>
    intro cs
    cases cs with
    | nil => simp [editContents]
    | cons c cs => simp [editContents, ih]

theorem editContents_map_components : ∀ (ms : List Msg) (cs : List Str),
    (editContents ms cs).map Msg.components = ms.map Msg.components := by
  intro ms
  induction ms with
  | nil => intro cs; cases cs <;> rfl
  | cons m ms ih =>
    intro cs
    cases cs with
    | nil => rfl
    | cons c cs => simp [editContents, ih]

theorem map_strip_map_content (ms : List Msg) :
    (ms.map stripComponents).map Msg.content = ms.map Msg.content := by
  induction ms with
  | nil => rfl
  | cons m ms ih => simp [stripComponents, ih]

theorem createReplies_spec : ∀ (cs : List Str) (nid : Nat) (ms : List Msg), ms ≠ [] →
    ∃ ms' nid', createReplies nid ms cs = some (ms', nid') ∧
      ms'.map Msg.content = ms.map Msg.content ++ cs ∧
      ms'.map Msg.components = ms.map Msg.components ++ cs.map (fun _ => []) ∧
      ms' ≠ [] := by
  intro cs
  induction cs with
  | nil =>
    intro nid ms h
    exact ⟨ms, nid, rfl, by simp, by simp, h⟩
  | cons c cs ih =>
    intro nid ms h
    rcases List.eq_nil_or_concat ms with rfl | ⟨l, a, hms⟩
    · exact absurd rfl h
    · rw [List.concat_eq_append] at hms
      subst hms
      obtain ⟨ms', nid', heq, hcont, hcomp, hne⟩ :=
        ih (nid + 1) ((l ++ [a]) ++ [⟨nid, c, [], []⟩]) (by simp)
      refine ⟨ms', nid', ?_, ?_, ?_, hne⟩
      · show createReplies nid (l ++ [a]) (c :: cs) = some (ms', nid')
        unfold createReplies
        rw [List.getLast?_concat]
        exact heq
      · rw [hcont]; simp
      · rw [hcomp]; simp

theorem addCancelButton_map_content (f u : Nat) (ms : List Msg) :
    (addCancelButton f u ms).map Msg.content = ms.map Msg.content := by
  rcases List.eq_nil_or_concat ms with rfl | ⟨l, a, hms⟩
  · rfl
  · rw [List.concat_eq_append] at hms
    subst hms
    unfold addCancelButton
    rw [List.getLast?_concat, List.dropLast_concat]
    dsimp only
    by_cases h : a.components.isEmpty
    · rw [if_pos h]; simp
    · rw [if_neg h]

theorem addCancelButton_length (f u : Nat) (ms : List Msg) :
    (addCancelButton f u ms).length = ms.length := by
  have h := congrArg List.length (addCancelButton_map_content f u ms)
  simpa using h

theorem sync_eq_createdStage (st : OutputterState) :
    sync_messages_with_chunks st =
      match createdStage st with
      | none => none
      | some (msgs2, nid) =>
        match msgs2.head? with
        | none => some { st with messages := msgs2, next_id := nid }
        | some first =>
          some { st with
            messages :=
              if st.in_terminal_state then msgs2
              else addCancelButton first.id st.user_id msgs2
            next_id := nid } := rfl

theorem sync_from_created (st : OutputterState) (msgs2 : List Msg) (nid : Nat)
    (hc : createdStage st = some (msgs2, nid)) :
    (msgs2 = [] ∧
      sync_messages_with_chunks st = some { st with messages := [], next_id := nid }) ∨
    (∃ m ms2, msgs2 = m :: ms2 ∧
      sync_messages_with_chunks st = some { st with
        messages :=
          if st.in_terminal_state then msgs2
          else addCancelButton m.id st.user_id msgs2
        next_id := nid }) := by
  rw [sync_eq_createdStage, hc]
  cases msgs2 with
  | nil => exact Or.inl ⟨rfl, rfl⟩
  | cons m ms2 => exact Or.inr ⟨m, ms2, rfl, rfl⟩

theorem createdStage_map_content (st : OutputterState)
    (h : st.messages ≠ [] ∨ st.chunks = []) :
    ∃ msgs2 nid, createdStage st = some (msgs2, nid) ∧
      msgs2.map Msg.content = st.chunks := by
  have hlen1 : (editContents st.messages st.chunks).length = st.messages.length :=
    editContents_length _ _
  by_cases h1 : st.chunks.length < (editContents st.messages st.chunks).length
  · refine ⟨(editContents st.messages st.chunks).take st.chunks.length, st.next_id,
      by rw [createdStage, if_pos h1], ?_⟩
    have hle : st.chunks.length ≤ st.messages.length := Nat.le_of_lt (hlen1 ▸ h1)
    rw [List.map_take, editContents_map_content]
    rw [List.take_append_eq_append_take]
    rw [List.take_take, inf_eq_left.mpr hle, List.take_length]
    rw [List.length_take, inf_eq_right.mpr hle, Nat.sub_self, List.take_zero,
      List.append_nil]
  · by_cases h2 : st.chunks.length > (editContents st.messages st.chunks).length
    · have hmsne : st.messages ≠ [] := by
        rcases h with h | h
        · exact h
        · exfalso
          rw [h] at h2
          simp at h2
      have hedne : (editContents st.messages st.chunks).map stripComponents ≠ [] := by
        intro hcon
        apply hmsne
        have := congrArg List.length hcon
        simp only [List.length_map, hlen1, List.length_nil] at this
        exact List.length_eq_zero.mp this
      obtain ⟨ms', nid', heq, hcont, _, _⟩ :=
        createReplies_spec (st.chunks.drop (editContents st.messages st.chunks).length)
          st.next_id ((editContents st.messages st.chunks).map stripComponents) hedne
      refine ⟨ms', nid', ?_, ?_⟩
      · rw [createdStage, if_neg h1, if_pos h2]
        exact heq
      · rw [hcont, map_strip_map_content, editContents_map_content]
        have hge : st.messages.length ≤ st.chunks.length := Nat.le_of_lt (hlen1 ▸ h2)
        rw [List.drop_eq_nil_of_le (by simpa using hge), List.append_nil, hlen1]
        exact List.take_append_drop _ _
    · have hleneq : st.chunks.length = (editContents st.messages st.chunks).length := by
        omega
      refine ⟨editContents st.messages st.chunks, st.next_id,
        by rw [createdStage, if_neg h1, if_neg h2], ?_⟩
      rw [editContents_map_content]
      rw [List.drop_eq_nil_of_le (by rw [List.length_map]; omega), List.append_nil]
      exact List.take_of_length_le (by omega)

/-- The complete content behaviour of `sync_messages_with_chunks` whenever at
least one message is posted or the chunk list is empty: it completes and
returns a state carrying exactly one message per chunk with matching
contents, all fields other than `messages` and `next_id` unchanged. -/
theorem sync_total_spec (st : OutputterState)
    (h : st.messages ≠ [] ∨ st.chunks = []) :
    ∃ st', sync_messages_with_chunks st = some st' ∧
      st'.messages.map Msg.content = st.chunks ∧
      st'.messages.length = st.chunks.length ∧
      st'.chunks = st.chunks ∧
      st'.in_terminal_state = st.in_terminal_state ∧
      st'.user_id = st.user_id ∧
      st'.pending_attachments = st.pending_attachments ∧
      st'.last_update = st.last_update ∧
      st'.last_update_duration = st.last_update_duration ∧
      st'.posted_replies = st.posted_replies := by
  obtain ⟨msgs2, nid, hc, hcont⟩ := createdStage_map_content st h
  rcases sync_from_created st msgs2 nid hc with ⟨rfl, heq⟩ | ⟨m, ms2, rfl, heq⟩
  · refine ⟨_, heq, ?_, ?_, rfl, rfl, rfl, rfl, rfl, rfl, rfl⟩
    · exact hcont
    · simpa using congrArg List.length hcont
  · refine ⟨_, heq, ?_, ?_, rfl, rfl, rfl, rfl, rfl, rfl, rfl⟩
    · dsimp only
      by_cases ht : st.in_terminal_state = true
      · rw [if_pos ht]
        exact hcont
      · rw [if_neg ht, addCancelButton_map_content]
        exact hcont
    · dsimp only
      by_cases ht : st.in_terminal_state = true
      · rw [if_pos ht]
        simpa using congrArg List.length hcont
      · rw [if_neg ht, addCancelButton_length]
        simpa using congrArg List.length hcont

theorem editContents_nil_left (cs : List Str) : editContents [] cs = [] := by
  cases cs <;> rfl

/-- C1 counterexample: with zero posted messages and one chunk the sync
routine does not complete (the reply-creation loop unwraps a missing last
message), so there is no after-state in which message count and chunk count
agree. -/
theorem c1_sync_counterexample :
    sync_messages_with_chunks
      { user_id := 2, messages := [], chunks := [['a']], pending_attachments := []
        in_terminal_state := false, last_update := 0, last_update_duration := 100
        posted_replies := [], next_id := 5 } = none := by
  decide

/-- C1 (amended): whenever the message-sync routine completes — which it does
exactly when at least one message is posted or the chunk list is empty; with
zero messages and a non-empty chunk list it panics instead — the posted
messages after the call are one per chunk, in order, with the i-th message's
content equal to the i-th chunk. -/
theorem sync_convergence (st : OutputterState)
    (h : st.messages ≠ [] ∨ st.chunks = []) :
    syncedContents st = some st.chunks ∧ syncedCount st = some st.chunks.length := by
  obtain ⟨st', heq, hcont, hlen, _⟩ := sync_total_spec st h
  constructor
  · rw [syncedContents, heq, Option.map_some']
    exact congrArg some hcont
  · rw [syncedCount, heq, Option.map_some']
    exact congrArg some hlen

/-- C1 witness: the amended convergence property evaluated on one posted
message and two chunks. -/
theorem sync_convergence_witness :
    syncedContents
        { user_id := 2, messages := [⟨1, ['x'], [], []⟩], chunks := [['y'], ['z']]
          pending_attachments := [], in_terminal_state := false, last_update := 0
          last_update_duration := 100, posted_replies := [], next_id := 6 } =
      some [['y'], ['z']] ∧
    syncedCount
        { user_id := 2, messages := [⟨1, ['x'], [], []⟩], chunks := [['y'], ['z']]
          pending_attachments := [], in_terminal_state := false, last_update := 0
          last_update_duration := 100, posted_replies := [], next_id := 6 } =
      some 2 :=
  sync_convergence _ (Or.inl (by decide))

/-- C6 counterexample: with zero posted messages and a non-empty chunk list
the sync routine fails (the modelled `unwrap` panic) instead of completing as
a no-op. -/
theorem c6_sync_counterexample :
    sync_messages_with_chunks
      { user_id := 3, messages := [], chunks := [['b', 'b']], pending_attachments := []
        in_terminal_state := false, last_update := 7, last_update_duration := 50
        posted_replies := [], next_id := 9 } ≠
      some
        { user_id := 3, messages := [], chunks := [['b', 'b']], pending_attachments := []
          in_terminal_state := false, last_update := 7, last_update_duration := 50
          posted_replies := [], next_id := 9 } := by
  decide

theorem sync_some_of_no_messages (st : OutputterState) (h : st.messages = [])
    (hc : st.chunks = []) : sync_messages_with_chunks st = some st := by
  rw [sync_eq_createdStage]
  have hcreated : createdStage st = some ([], st.next_id) := by
    rw [createdStage, h, hc]
    rfl
  rw [hcreated]
  show some { st with messages := [], next_id := st.next_id } = some st
  obtain ⟨u, ms, cs, pa, t, lu, lud, pr, ni⟩ := st
  simp only at h
  subst h
  rfl

theorem sync_none_of_no_messages (st : OutputterState) (h : st.messages = [])
    (hc : st.chunks ≠ []) : sync_messages_with_chunks st = none := by
  rcases hcs : st.chunks with _ | ⟨c, cs⟩
  · exact absurd hcs hc
  · rw [sync_eq_createdStage]
    have h1 : ¬ st.chunks.length < (editContents st.messages st.chunks).length := by
      rw [editContents_length, h]
      simp
    have h2 : st.chunks.length > (editContents st.messages st.chunks).length := by
      rw [editContents_length, h]
      simpa using List.length_pos.mpr hc
    have hcreated : createdStage st = none := by
      rw [createdStage, if_neg h1, if_pos h2, h, editContents_nil_left, hcs]
      rfl
    rw [hcreated]

/-- C6 (amended): calling the message-sync routine with zero posted messages
completes without failing and changes nothing when the chunk list is also
empty; with a non-empty chunk list and zero messages it instead fails with
the `unwrap` panic of the reply-creation loop. -/
theorem sync_no_messages (st : OutputterState) (h : st.messages = []) :
    (st.chunks = [] → sync_messages_with_chunks st = some st) ∧
    (st.chunks ≠ [] → sync_messages_with_chunks st = none) :=
  ⟨fun hc => sync_some_of_no_messages st h hc,
   fun hc => sync_none_of_no_messages st h hc⟩

/-- C6 witness: the amended no-op property evaluated at a state with zero
messages and zero chunks. -/
theorem sync_no_messages_witness :
    sync_messages_with_chunks
        { user_id := 4, messages := [], chunks := [], pending_attachments := []
          in_terminal_state := false, last_update := 0, last_update_duration := 25
          posted_replies := [], next_id := 2 } =
      some
        { user_id := 4, messages := [], chunks := [], pending_attachments := []
          in_terminal_state := false, last_update := 0, last_update_duration := 25
          posted_replies := [], next_id := 2 } :=
  (sync_no_messages _ rfl).1 rfl

/-- C10: a sync against an empty chunk list with messages posted deletes
every posted message including the anchor; and the state is reachable — the
outputter starts with an empty chunk list while the anchor is already posted,
so a rate-interval tick arriving before the first update erases the initial
message. -/
theorem empty_chunks_sync_deletes_all :
    (∀ st : OutputterState, st.chunks = [] → st.messages ≠ [] →
      sync_messages_with_chunks st = some { st with messages := [] }) ∧
    (∀ a u t0 dur nid now : Nat, ∀ im : Str, t0 + dur ≤ now →
      stepOut (initOutputter a im u t0 dur nid) (now, OutEvent.tick) =
        some ({ initOutputter a im u t0 dur nid with messages := [], last_update := now },
          [(now, false)])) := by
  have main : ∀ st : OutputterState, st.chunks = [] → st.messages ≠ [] →
      sync_messages_with_chunks st = some { st with messages := [] } := by
    intro st hc hm
    rw [sync_eq_createdStage]
    have h1 : st.chunks.length < (editContents st.messages st.chunks).length := by
      rw [editContents_length, hc]
      simpa using List.length_pos.mpr hm
    have hcreated : createdStage st = some ([], st.next_id) := by
      rw [createdStage, if_pos h1, hc]
      rfl
    rw [hcreated]
    rfl
  refine ⟨main, ?_⟩
  intro a u t0 dur nid now im hnow
  show sync_if_pending now (initOutputter a im u t0 dur nid) = _
  rw [sync_if_pending]
  rw [if_neg (by simp [initOutputter])]
  rw [if_pos (by simp only [initOutputter]; omega)]
  rw [main (initOutputter a im u t0 dur nid) rfl (by simp [initOutputter])]

/-- C10 witness: the tick-before-first-update scenario at concrete values. -/
theorem empty_chunks_sync_deletes_all_witness :
    Outputter.stepOut (initOutputter 1 [] 2 0 100 10) (200, OutEvent.tick) =
      some ({ initOutputter 1 [] 2 0 100 10 with messages := [], last_update := 200 },
        [(200, false)]) :=
  empty_chunks_sync_deletes_all.2 1 2 0 100 10 200 [] (by decide)

/-! ### Component lemmas and terminal idempotence -/

theorem all_comps_nil_of_map_eq {ms1 ms2 : List Msg}
    (h : ms1.map Msg.components = ms2.map Msg.components)
    (hall : ∀ m ∈ ms2, m.components = []) : ∀ m ∈ ms1, m.components = [] := by
  intro m hm
  have hmem : m.components ∈ ms1.map Msg.components := List.mem_map_of_mem _ hm
  rw [h] at hmem
  obtain ⟨m2, hm2, hc⟩ := List.mem_map.mp hmem
  rw [← hc]
  exact hall m2 hm2

theorem mem_map_strip_comps_nil (ms : List Msg) :
    ∀ m ∈ ms.map stripComponents, m.components = [] := by
  intro m hm
  obtain ⟨m0, _, hm0⟩ := List.mem_map.mp hm
  rw [← hm0]
  rfl

theorem createReplies_all_comps_nil : ∀ (cs : List Str) (nid : Nat) (ms ms' : List Msg)
    (nid' : Nat), (∀ m ∈ ms, m.components = []) →
    createReplies nid ms cs = some (ms', nid') → ∀ m ∈ ms', m.components = [] := by
  intro cs
  induction cs with
  | nil =>
    intro nid ms ms' nid' hall heq
    simp only [createReplies, Option.some.injEq, Prod.mk.injEq] at heq
    obtain ⟨rfl, rfl⟩ := heq
    exact hall
  | cons c cs ih =>
    intro nid ms ms' nid' hall heq
    unfold createReplies at heq
    rcases hlast : ms.getLast? with _ | last
    · rw [hlast] at heq
      cases heq
    · rw [hlast] at heq
      refine ih (nid + 1) (ms ++ [⟨nid, c, [], []⟩]) ms' nid' ?_ heq
      intro m hm
      rcases List.mem_append.mp hm with hm' | hm'
      · exact hall m hm'
      · rw [List.mem_singleton] at hm'
        rw [hm']

theorem createdStage_all_comps_nil (st : OutputterState)
    (hall : ∀ m ∈ st.messages, m.components = []) :
    ∀ msgs2 nid, createdStage st = some (msgs2, nid) → ∀ m ∈ msgs2, m.components = [] := by
  intro msgs2 nid hc
  have hedit_all : ∀ m ∈ editContents st.messages st.chunks, m.components = [] :=
    all_comps_nil_of_map_eq (editContents_map_components _ _) hall
  by_cases h1 : st.chunks.length < (editContents st.messages st.chunks).length
  · rw [createdStage, if_pos h1, Option.some.injEq, Prod.mk.injEq] at hc
    obtain ⟨rfl, rfl⟩ := hc
    intro m hm
    exact hedit_all m (List.take_subset _ _ hm)
  · by_cases h2 : st.chunks.length > (editContents st.messages st.chunks).length
    · rw [createdStage, if_neg h1, if_pos h2] at hc
      exact createReplies_all_comps_nil _ _ _ _ _
        (mem_map_strip_comps_nil _) hc
    · rw [createdStage, if_neg h1, if_neg h2, Option.some.injEq, Prod.mk.injEq] at hc
      obtain ⟨rfl, rfl⟩ := hc
      exact hedit_all

theorem sync_comps_terminal (st st' : OutputterState)
    (hterm : st.in_terminal_state = true)
    (hall : ∀ m ∈ st.messages, m.components = [])
    (heq : sync_messages_with_chunks st = some st') :
    ∀ m ∈ st'.messages, m.components = [] := by
  rw [sync_eq_createdStage] at heq
  rcases hcs : createdStage st with _ | ⟨msgs2, nid⟩
  · rw [hcs] at heq
    cases heq
  · rw [hcs] at heq
    cases msgs2 with
    | nil =>
      cases heq
      intro m hm
      simp at hm
    | cons m ms2 =>
      have heq2 : some { st with
          messages :=
            if st.in_terminal_state = true then m :: ms2
            else addCancelButton m.id st.user_id (m :: ms2)
          next_id := nid } = some st' := heq
      rw [if_pos hterm] at heq2
      cases heq2
      exact createdStage_all_comps_nil st hall _ _ hcs

theorem sync_some_hyp (st st2 : OutputterState)
    (heq : sync_messages_with_chunks st = some st2) :
    st.messages ≠ [] ∨ st.chunks = [] := by
  by_cases hm : st.messages = []
  · by_cases hc : st.chunks = []
    · exact Or.inr hc
    · rw [sync_none_of_no_messages st hm hc] at heq
      cases heq
  · exact Or.inl hm

theorem map_strip_of_comps_nil (ms : List Msg)
    (h : ∀ m ∈ ms, m.components = []) : ms.map stripComponents = ms := by
  induction ms with
  | nil => rfl
  | cons m ms ih =>
    have hm : m.components = [] := h m (List.mem_cons_self _ _)
    have : stripComponents m = m := by
      obtain ⟨i, c, comp, a⟩ := m
      simp only at hm
      rw [stripComponents, hm]
    rw [List.map_cons, this, ih (fun m' hm' => h m' (List.mem_cons_of_mem _ hm'))]

theorem editContents_self (ms : List Msg) : ∀ cs : List Str,
    ms.map Msg.content = cs → editContents ms cs = ms := by
  induction ms with
  | nil =>
    intro cs h
    rw [← h]
    rfl
  | cons m ms ih =>
    intro cs h
    rw [← h]
    show editContents (m :: ms) (m.content :: ms.map Msg.content) = m :: ms
    rw [editContents]
    rw [ih (ms.map Msg.content) rfl]

theorem set_terminal_self (st : OutputterState) (h : st.in_terminal_state = true) :
    { st with in_terminal_state := true } = st := by
  obtain ⟨u, ms, cs, pa, t, lu, lud, pr, ni⟩ := st
  simp only at h
  rw [h]

/-- A state that is terminal, carries no components, and whose message
contents already match its chunks is a fixed point of the sync routine. -/
theorem sync_identity (st : OutputterState)
    (hterm : st.in_terminal_state = true)
    (hcont : st.messages.map Msg.content = st.chunks) :
    sync_messages_with_chunks st = some st := by
  have hlen : st.chunks.length = st.messages.length := by
    rw [← hcont, List.length_map]
  have hedit : editContents st.messages st.chunks = st.messages :=
    editContents_self st.messages st.chunks hcont
  have h1 : ¬ st.chunks.length < (editContents st.messages st.chunks).length := by
    rw [hedit]
    omega
  have h2 : ¬ st.chunks.length > (editContents st.messages st.chunks).length := by
    rw [hedit]
    omega
  have hcreated : createdStage st = some (st.messages, st.next_id) := by
    rw [createdStage, if_neg h1, if_neg h2, hedit]
  rw [sync_eq_createdStage, hcreated]
  cases hms : st.messages with
  | nil =>
    show some { st with messages := [], next_id := st.next_id } = some st
    rw [← hms]
  | cons m ms2 =>
    show some { st with
      messages :=
        if st.in_terminal_state = true then m :: ms2
        else addCancelButton m.id st.user_id (m :: ms2)
      next_id := st.next_id } = some st
    rw [if_pos hterm, ← hms]

theorem flushAttachments_fixpoint (st : OutputterState)
    (h : st.pending_attachments = [] ∨ st.messages = []) :
    flushAttachments st = st := by
  rcases h with h | h
  · rw [flushAttachments, if_pos (by rw [h]; rfl)]
  · by_cases hp : st.pending_attachments.isEmpty
    · rw [flushAttachments, if_pos hp]
    · rw [flushAttachments, if_neg hp, h]
      rfl

theorem flushAttachments_map_content (st : OutputterState) :
    (flushAttachments st).messages.map Msg.content = st.messages.map Msg.content := by
  by_cases hp : st.pending_attachments.isEmpty
  · rw [flushAttachments, if_pos hp]
  · rcases List.eq_nil_or_concat st.messages with hms | ⟨l, a, hms⟩
    · rw [flushAttachments_fixpoint st (Or.inr hms)]
    · rw [List.concat_eq_append] at hms
      rw [flushAttachments, if_neg hp, hms, List.getLast?_concat]
      dsimp only
      rw [List.dropLast_concat]
      simp

theorem flushAttachments_comps (st : OutputterState)
    (h : ∀ m ∈ st.messages, m.components = []) :
    ∀ m ∈ (flushAttachments st).messages, m.components = [] := by
  by_cases hp : st.pending_attachments.isEmpty
  · rw [flushAttachments, if_pos hp]
    exact h
  · rcases List.eq_nil_or_concat st.messages with hms | ⟨l, a, hms⟩
    · rw [flushAttachments_fixpoint st (Or.inr hms)]
      exact h
    · rw [List.concat_eq_append] at hms
      rw [flushAttachments, if_neg hp, hms, List.getLast?_concat]
      dsimp only
      rw [List.dropLast_concat]
      rw [hms] at h
      intro m hm
      rcases List.mem_append.mp hm with hm' | hm'
      · exact h m (List.mem_append.mpr (Or.inl hm'))
      · rw [List.mem_singleton] at hm'
        rw [hm']
        exact h a (List.mem_append.mpr (Or.inr (List.mem_singleton.mpr rfl)))

theorem flushAttachments_fields (st : OutputterState) :
    (flushAttachments st).chunks = st.chunks ∧
    (flushAttachments st).in_terminal_state = st.in_terminal_state ∧
    ((flushAttachments st).pending_attachments = [] ∨
      (flushAttachments st).messages = []) := by
  by_cases hp : st.pending_attachments.isEmpty
  · rw [flushAttachments, if_pos hp]
    exact ⟨rfl, rfl, Or.inl (List.isEmpty_iff.mp hp)⟩
  · rw [flushAttachments, if_neg hp]
    rcases hlast : st.messages.getLast? with _ | last
    · refine ⟨rfl, rfl, Or.inr ?_⟩
      rwa [← List.getLast?_eq_none_iff]
    · exact ⟨rfl, rfl, Or.inl rfl⟩

/-- The state reached by a completed `finish`: terminal, chunks unchanged and
in sync with the messages, no components anywhere, and either no pending
attachments remain or there are no messages at all. -/
theorem finish_spec (st st1 : OutputterState)
    (h : finish st = some st1) :
    st1.in_terminal_state = true ∧
    st1.chunks = st.chunks ∧
    st1.messages.map Msg.content = st.chunks ∧
    (∀ m ∈ st1.messages, m.components = []) ∧
    (st1.pending_attachments = [] ∨ st1.messages = []) := by
  rw [finish] at h
  rcases heq : sync_messages_with_chunks
      { st with messages := st.messages.map stripComponents
              , in_terminal_state := true } with _ | st2
  · rw [heq] at h
    cases h
  · rw [heq] at h
    cases h
    obtain ⟨st2', heq', hcont, hlen, hchunks, hterm', _, _, _, _, _⟩ :=
      sync_total_spec _ (sync_some_hyp _ _ heq)
    have h12 : st2 = st2' := by
      rw [heq] at heq'
      exact Option.some.inj heq'
    subst h12
    have hcomps : ∀ m ∈ st2.messages, m.components = [] :=
      sync_comps_terminal _ _ rfl (mem_map_strip_comps_nil _) heq
    obtain ⟨hfc, hft, hfp⟩ := flushAttachments_fields st2
    refine ⟨?_, ?_, ?_, ?_, hfp⟩
    · rw [hft, hterm']
    · rw [hfc, hchunks]
    · rw [flushAttachments_map_content, hcont]
    · exact flushAttachments_comps _ hcomps

/-- C4 counterexample: the error/cancellation terminal path is not
idempotent — invoking it twice strikes the already struck-through content
again and appends a second copy of the notice reply, so the rendered state
differs from a single invocation. -/
theorem c4_on_error_counterexample :
    on_error
        (on_error
          { user_id := 2, messages := [⟨1, ['c'], [], []⟩], chunks := []
            pending_attachments := [], in_terminal_state := false, last_update := 0
            last_update_duration := 100, posted_replies := [], next_id := 5 }
          ['e'])
        ['e'] ≠
      on_error
        { user_id := 2, messages := [⟨1, ['c'], [], []⟩], chunks := []
          pending_attachments := [], in_terminal_state := false, last_update := 0
          last_update_duration := 100, posted_replies := [], next_id := 5 }
        ['e'] := by
  decide

/-- C4 (amended): invoking the `finish` terminal transition twice yields the
same final rendered message state as invoking it once; this does not extend
to the error/cancellation path, whose second invocation strikes through the
content again and appends a duplicate trailing notice. -/
theorem finish_idempotent (st st1 : OutputterState)
    (h : finish st = some st1) : finish st1 = some st1 := by
  obtain ⟨hterm, _, hcont1, hcomps, hpm⟩ := finish_spec st st1 h
  have hcont : st1.messages.map Msg.content = st1.chunks := by
    obtain ⟨_, hchunks, hc, _, _⟩ := finish_spec st st1 h
    rw [hc, hchunks]
  rw [finish, map_strip_of_comps_nil _ hcomps]
  have hstate : { st1 with messages := st1.messages, in_terminal_state := true } = st1 := by
    show { st1 with in_terminal_state := true } = st1
    exact set_terminal_self st1 hterm
  rw [hstate, sync_identity st1 hterm hcont]
  show some (flushAttachments st1) = some st1
  rw [flushAttachments_fixpoint st1 hpm]

/-! ### Single cancel affordance (claim C3) -/

theorem compsOk_cons_iff (m : Msg) (l : List Msg) (h : l ≠ []) :
    compsOk (m :: l) ↔ m.components = [] ∧ compsOk l := by
  cases l with
  | nil => exact absurd rfl h
  | cons m2 l2 => exact Iff.rfl

theorem compsOk_of_all_nil : ∀ ms : List Msg, (∀ m ∈ ms, m.components = []) →
    compsOk ms := by
  intro ms
  induction ms with
  | nil => intro _; trivial
  | cons m ms ih =>
    intro h
    cases ms with
    | nil => trivial
    | cons m2 ms2 =>
      refine ⟨h m (List.mem_cons_self _ _), ?_⟩
      exact ih fun m' hm' => h m' (List.mem_cons_of_mem _ hm')

theorem compsOk_iff : ∀ ms : List Msg,
    compsOk ms ↔ ∀ m ∈ ms.dropLast, m.components = [] := by
  intro ms
  induction ms with
  | nil => simp [compsOk]
  | cons m ms ih =>
    cases ms with
    | nil => simp [compsOk]
    | cons m2 ms2 =>
      rw [compsOk_cons_iff m (m2 :: ms2) (by simp), ih]
      rw [show (m :: m2 :: ms2).dropLast = m :: (m2 :: ms2).dropLast from rfl]
      simp

theorem compsOk_edit : ∀ (ms : List Msg) (cs : List Str),
    compsOk ms → compsOk (editContents ms cs) := by
  intro ms
  induction ms with
  | nil =>
    intro cs _
    rw [editContents_nil_left]
    trivial
  | cons m ms ih =>
    intro cs h
    cases cs with
    | nil => exact h
    | cons c cs =>
      show compsOk ({ m with content := c } :: editContents ms cs)
      cases hms : ms with
      | nil =>
        rw [editContents_nil_left]
        trivial
      | cons m2 ms2 =>
        have hne : editContents (m2 :: ms2) cs ≠ [] := by
          intro hcon
          have hl := congrArg List.length hcon
          rw [editContents_length] at hl
          simp at hl
        rw [compsOk_cons_iff _ _ hne]
        rw [hms] at h
        obtain ⟨h1, h2⟩ := (compsOk_cons_iff _ _ (by simp)).mp h
        rw [← hms] at h2 ⊢
        exact ⟨h1, ih cs h2⟩

theorem compsOk_take : ∀ (n : Nat) (ms : List Msg), compsOk ms → compsOk (ms.take n) := by
  intro n
  induction n with
  | zero => intro ms _; trivial
  | succ n ih =>
    intro ms h
    cases ms with
    | nil => trivial
    | cons m ms2 =>
      rw [List.take_succ_cons]
      cases hms : ms2.take n with
      | nil => trivial
      | cons x xs =>
        have hne2 : ms2 ≠ [] := by
          intro hcon
          rw [hcon, List.take_nil] at hms
          cases hms
        rw [compsOk_cons_iff _ _ (by simp)]
        obtain ⟨h1, h2⟩ := (compsOk_cons_iff _ _ hne2).mp h
        refine ⟨h1, ?_⟩
        rw [← hms]
        exact ih ms2 h2

theorem compsOk_replace_last : ∀ (l : List Msg) (a b : Msg),
    compsOk (l ++ [a]) → compsOk (l ++ [b]) := by
  intro l
  induction l with
  | nil => intro a b _; trivial
  | cons m l ih =>
    intro a b h
    rw [List.cons_append] at h ⊢
    obtain ⟨h1, h2⟩ := (compsOk_cons_iff _ _ (by simp)).mp h
    rw [compsOk_cons_iff _ _ (by simp)]
    exact ⟨h1, ih a b h2⟩

theorem addCancelButton_cases (f u : Nat) (ms : List Msg) :
    addCancelButton f u ms = ms ∨
    ∃ l a, ms = l ++ [a] ∧
      addCancelButton f u ms = l ++ [{ a with components := [Component.cancelButton f u] }] := by
  rcases List.eq_nil_or_concat ms with hms | ⟨l, a, hms⟩
  · rw [hms]
    exact Or.inl rfl
  · rw [List.concat_eq_append] at hms
    subst hms
    rw [addCancelButton, List.getLast?_concat]
    dsimp only
    by_cases h : a.components.isEmpty
    · rw [if_pos h, List.dropLast_concat]
      exact Or.inr ⟨l, a, rfl, rfl⟩
    · rw [if_neg h]
      exact Or.inl rfl

theorem compsOk_addCancelButton (f u : Nat) (ms : List Msg) (h : compsOk ms) :
    compsOk (addCancelButton f u ms) := by
  rcases addCancelButton_cases f u ms with heq | ⟨l, a, hms, heq⟩
  · rwa [heq]
  · rw [heq]
    exact compsOk_replace_last l a _ (hms ▸ h)

theorem addCancelButton_p2 (f u : Nat) (ms : List Msg)
    (h : ∀ m ∈ ms, m.components = [] ∨
      ∃ a u', m.components = [Component.cancelButton a u']) :
    ∀ m ∈ addCancelButton f u ms, m.components = [] ∨
      ∃ a u', m.components = [Component.cancelButton a u'] := by
  rcases addCancelButton_cases f u ms with heq | ⟨l, a, hms, heq⟩
  · rwa [heq]
  · rw [heq]
    intro m hm
    rcases List.mem_append.mp hm with hm' | hm'
    · exact h m (hms ▸ List.mem_append.mpr (Or.inl hm'))
    · rw [List.mem_singleton] at hm'
      rw [hm']
      exact Or.inr ⟨f, u, rfl⟩

theorem comps_exists_of_map_eq {ms1 ms2 : List Msg}
    (h : ms1.map Msg.components = ms2.map Msg.components) :
    ∀ m ∈ ms1, ∃ m2 ∈ ms2, m.components = m2.components := by
  intro m hm
  have hmem : m.components ∈ ms1.map Msg.components := List.mem_map_of_mem _ hm
  rw [h] at hmem
  obtain ⟨m2, hm2, hc⟩ := List.mem_map.mp hmem
  exact ⟨m2, hm2, hc.symm⟩

theorem compsOk_filter_length : ∀ ms : List Msg, compsOk ms →
    (ms.filter (fun m => !m.components.isEmpty)).length ≤ 1 := by
  intro ms
  induction ms with
  | nil => intro _; simp
  | cons m ms ih =>
    intro h
    cases ms with
    | nil =>
      calc (List.filter (fun m => !m.components.isEmpty) [m]).length
          ≤ [m].length := List.length_filter_le _ _
        _ = 1 := rfl
    | cons m2 ms2 =>
      obtain ⟨h1, h2⟩ := (compsOk_cons_iff _ _ (by simp)).mp h
      rw [List.filter_cons_of_neg (by rw [h1]; decide)]
      exact ih h2

theorem createdStage_compsOk (st : OutputterState) (msgs2 : List Msg) (nid : Nat)
    (hOk : compsOk st.messages)
    (hP2 : ∀ m ∈ st.messages, m.components = [] ∨
      ∃ a u', m.components = [Component.cancelButton a u'])
    (hc : createdStage st = some (msgs2, nid)) :
    compsOk msgs2 ∧ (∀ m ∈ msgs2, m.components = [] ∨
      ∃ a u', m.components = [Component.cancelButton a u']) := by
  have hOkE : compsOk (editContents st.messages st.chunks) := compsOk_edit _ _ hOk
  have hP2E : ∀ m ∈ editContents st.messages st.chunks, m.components = [] ∨
      ∃ a u', m.components = [Component.cancelButton a u'] := by
    intro m hm
    obtain ⟨m2, hm2, hcc⟩ := comps_exists_of_map_eq (editContents_map_components _ _) m hm
    rw [hcc]
    exact hP2 m2 hm2
  by_cases h1 : st.chunks.length < (editContents st.messages st.chunks).length
  · rw [createdStage, if_pos h1, Option.some.injEq, Prod.mk.injEq] at hc
    obtain ⟨rfl, rfl⟩ := hc
    refine ⟨compsOk_take _ _ hOkE, ?_⟩
    intro m hm
    exact hP2E m (List.take_subset _ _ hm)
  · by_cases h2 : st.chunks.length > (editContents st.messages st.chunks).length
    · rw [createdStage, if_neg h1, if_pos h2] at hc
      have hnil : ∀ m ∈ msgs2, m.components = [] :=
        createReplies_all_comps_nil _ _ _ _ _ (mem_map_strip_comps_nil _) hc
      exact ⟨compsOk_of_all_nil _ hnil, fun m hm => Or.inl (hnil m hm)⟩
    · rw [createdStage, if_neg h1, if_neg h2, Option.some.injEq, Prod.mk.injEq] at hc
      obtain ⟨rfl, rfl⟩ := hc
      exact ⟨hOkE, hP2E⟩

/-- The sync routine preserves the cancel-affordance invariant: all but the
last message bare of components, components only ever a single cancel button,
and no components at all once terminal. -/
theorem sync_inv (st st' : OutputterState)
    (hOk : compsOk st.messages)
    (hP2 : ∀ m ∈ st.messages, m.components = [] ∨
      ∃ a u', m.components = [Component.cancelButton a u'])
    (hT : st.in_terminal_state = true → ∀ m ∈ st.messages, m.components = [])
    (heq : sync_messages_with_chunks st = some st') :
    compsOk st'.messages ∧
    (∀ m ∈ st'.messages, m.components = [] ∨
      ∃ a u', m.components = [Component.cancelButton a u']) ∧
    (st'.in_terminal_state = true → ∀ m ∈ st'.messages, m.components = []) := by
  rw [sync_eq_createdStage] at heq
  rcases hcs : createdStage st with _ | ⟨msgs2, nid⟩
  · rw [hcs] at heq
    cases heq
  · obtain ⟨hOk2, hP22⟩ := createdStage_compsOk st msgs2 nid hOk hP2 hcs
    rw [hcs] at heq
    cases msgs2 with
    | nil =>
      cases heq
      refine ⟨trivial, ?_, ?_⟩
      · intro m hm
        simp at hm
      · intro _ m hm
        simp at hm
    | cons m ms2 =>
      have heq2 : some { st with
          messages :=
            if st.in_terminal_state = true then m :: ms2
            else addCancelButton m.id st.user_id (m :: ms2)
          next_id := nid } = some st' := heq
      cases heq2
      by_cases ht : st.in_terminal_state = true
      · refine ⟨?_, ?_, ?_⟩
        · show compsOk (if st.in_terminal_state = true then m :: ms2
            else addCancelButton m.id st.user_id (m :: ms2))
          rw [if_pos ht]
          exact hOk2
        · show ∀ m' ∈ (if st.in_terminal_state = true then m :: ms2
            else addCancelButton m.id st.user_id (m :: ms2)), _
          rw [if_pos ht]
          exact hP22
        · intro _
          show ∀ m' ∈ (if st.in_terminal_state = true then m :: ms2
            else addCancelButton m.id st.user_id (m :: ms2)), _
          rw [if_pos ht]
          exact createdStage_all_comps_nil st (hT ht) _ _ hcs
      · refine ⟨?_, ?_, ?_⟩
        · show compsOk (if st.in_terminal_state = true then m :: ms2
            else addCancelButton m.id st.user_id (m :: ms2))
          rw [if_neg ht]
          exact compsOk_addCancelButton _ _ _ hOk2
        · show ∀ m' ∈ (if st.in_terminal_state = true then m :: ms2
            else addCancelButton m.id st.user_id (m :: ms2)), _
          rw [if_neg ht]
          exact addCancelButton_p2 _ _ _ hP22
        · intro hcon
          exact absurd hcon ht

theorem on_error_comps (st : OutputterState) (e : Str) :
    (∀ m ∈ (on_error st e).messages, m.components = []) ∧
    (on_error st e).in_terminal_state = true := by
  rw [on_error]
  by_cases h : (st.messages.map fun m =>
      { m with components := ([] : List Component)
             , content := '~' :: '~' :: (m.content ++ ['~', '~']) }).isEmpty
  · rw [if_pos h]
    refine ⟨?_, rfl⟩
    intro m hm
    obtain ⟨m0, _, hm0⟩ := List.mem_map.mp hm
    rw [← hm0]
  · rw [if_neg h]
    refine ⟨?_, rfl⟩
    intro m hm
    obtain ⟨m0, _, hm0⟩ := List.mem_map.mp hm
    rw [← hm0]

theorem sync_if_pending_inv (now : Nat) (st st' : OutputterState)
    (recs : List (Nat × Bool))
    (heq : sync_if_pending now st = some (st', recs))
    (hOk : compsOk st.messages)
    (hP2 : ∀ m ∈ st.messages, m.components = [] ∨
      ∃ a u', m.components = [Component.cancelButton a u'])
    (hT : st.in_terminal_state = true → ∀ m ∈ st.messages, m.components = []) :
    compsOk st'.messages ∧
    (∀ m ∈ st'.messages, m.components = [] ∨
      ∃ a u', m.components = [Component.cancelButton a u']) ∧
    (st'.in_terminal_state = true → ∀ m ∈ st'.messages, m.components = []) := by
  rw [sync_if_pending] at heq
  by_cases ht : st.in_terminal_state = true
  · rw [if_pos ht] at heq
    cases heq
    exact ⟨hOk, hP2, hT⟩
  · rw [if_neg ht] at heq
    by_cases hg : st.last_update_duration ≤ now - st.last_update
    · rw [if_pos hg] at heq
      rcases hs : sync_messages_with_chunks st with _ | st2
      · rw [hs] at heq
        cases heq
      · rw [hs] at heq
        cases heq
        obtain ⟨c1, c2, c3⟩ := sync_inv st st2 hOk hP2 hT hs
        exact ⟨c1, c2, c3⟩
    · rw [if_neg hg] at heq
      cases heq
      exact ⟨hOk, hP2, hT⟩

theorem stepOut_inv (st : OutputterState) (e : Nat × OutEvent)
    (st' : OutputterState) (recs : List (Nat × Bool))
    (heq : stepOut st e = some (st', recs))
    (hOk : compsOk st.messages)
    (hP2 : ∀ m ∈ st.messages, m.components = [] ∨
      ∃ a u', m.components = [Component.cancelButton a u'])
    (hT : st.in_terminal_state = true → ∀ m ∈ st.messages, m.components = []) :
    compsOk st'.messages ∧
    (∀ m ∈ st'.messages, m.components = [] ∨
      ∃ a u', m.components = [Component.cancelButton a u']) ∧
    (st'.in_terminal_state = true → ∀ m ∈ st'.messages, m.components = []) := by
  obtain ⟨now, ev⟩ := e
  cases ev with
  | tick => exact sync_if_pending_inv now st st' recs heq hOk hP2 hT
  | cmd c =>
    cases c with
    | Update message =>
      exact sync_if_pending_inv now _ st' recs heq hOk hP2 hT
    | AddAttachment a =>
      cases heq
      exact ⟨hOk, hP2, hT⟩
    | Error err =>
      cases heq
      obtain ⟨hc, _⟩ := on_error_comps st err
      exact ⟨compsOk_of_all_nil _ hc, fun m hm => Or.inl (hc m hm), fun _ => hc⟩
    | Cancelled =>
      cases heq
      obtain ⟨hc, _⟩ := on_error_comps st ("The generation was cancelled.".data)
      exact ⟨compsOk_of_all_nil _ hc, fun m hm => Or.inl (hc m hm), fun _ => hc⟩
    | Finish =>
      have heq0 : (match finish st with
          | none => (none : Option (OutputterState × List (Nat × Bool)))
          | some st2 => some (st2, [(now, true)])) = some (st', recs) := heq
      rcases hf : finish st with _ | st2
      · rw [hf] at heq0
        exact Option.noConfusion heq0

      · rw [hf] at heq0
        have heq1 : some (st2, [(now, true)]) = some (st', recs) := heq0
        have hst : st2 = st' := congrArg Prod.fst (Option.some.inj heq1)
        obtain ⟨_, _, _, hc, _⟩ := finish_spec st st2 hf
        rw [← hst]
        exact ⟨compsOk_of_all_nil _ hc, fun m hm => Or.inl (hc m hm), fun _ => hc⟩

theorem runOut_inv : ∀ (cmds : List (Nat × OutEvent)) (st st' : OutputterState)
    (recs : List (Nat × Bool)),
    runOut st cmds = some (st', recs) →
    compsOk st.messages →
    (∀ m ∈ st.messages, m.components = [] ∨
      ∃ a u', m.components = [Component.cancelButton a u']) →
    (st.in_terminal_state = true → ∀ m ∈ st.messages, m.components = []) →
    compsOk st'.messages ∧
    (∀ m ∈ st'.messages, m.components = [] ∨
      ∃ a u', m.components = [Component.cancelButton a u']) ∧
    (st'.in_terminal_state = true → ∀ m ∈ st'.messages, m.components = []) := by
  intro cmds
  induction cmds with
  | nil =>
    intro st st' recs heq h1 h2 h3
    cases heq
    exact ⟨h1, h2, h3⟩
  | cons e es ih =>
    intro st st' recs heq h1 h2 h3
    rw [runOut] at heq
    rcases hs : stepOut st e with _ | ⟨st1, recs1⟩
    · rw [hs] at heq
      cases heq
    · rw [hs] at heq
      have heq2 : (match runOut st1 es with
          | none => (none : Option (OutputterState × List (Nat × Bool)))
          | some (st2, recs2) => some (st2, recs1 ++ recs2)) = some (st', recs) := heq
      rcases hr : runOut st1 es with _ | ⟨st2, recs2⟩
      · rw [hr] at heq2
        exact Option.noConfusion heq2
      · rw [hr] at heq2
        have heq3 : some (st2, recs1 ++ recs2) = some (st', recs) := heq2
        have hst : st2 = st' := congrArg Prod.fst (Option.some.inj heq3)
        obtain ⟨g1, g2, g3⟩ := stepOut_inv st e st1 recs1 hs h1 h2 h3
        rw [← hst]
        exact ih st1 st2 recs2 hr g1 g2 g3

/-- C3: at every point reachable by a completed run of the outputter loop
from its initial state, at most one posted message carries components, only
the last message may carry any, every carried component is the single cancel
button, and once the session is terminal no message carries any component. -/
theorem cancel_affordance (anchor_id : Nat) (im : Str) (u t0 dur nid : Nat)
    (cmds : List (Nat × OutEvent)) (st' : OutputterState) (recs : List (Nat × Bool))
    (h : runOut (initOutputter anchor_id im u t0 dur nid) cmds = some (st', recs)) :
    cancelAffordanceOk st' := by
  obtain ⟨g1, g2, g3⟩ := runOut_inv cmds (initOutputter anchor_id im u t0 dur nid)
    st' recs h trivial
    (by intro m hm
        rw [show (initOutputter anchor_id im u t0 dur nid).messages =
          [⟨anchor_id, im, [], []⟩] from rfl, List.mem_singleton] at hm
        rw [hm]
        exact Or.inl rfl)
    (by intro hcon
        cases hcon)
  exact ⟨compsOk_filter_length _ g1, (compsOk_iff _).mp g1, g2, g3⟩

/-- C3 witness: the affordance invariant at the state reached by one update
command processed past the rate gate. -/
theorem cancel_affordance_witness :
    cancelAffordanceOk
      { user_id := 2, messages := [⟨1, ['h', 'i'], [Component.cancelButton 1 2], []⟩]
        chunks := [['h', 'i']], pending_attachments := [], in_terminal_state := false
        last_update := 200, last_update_duration := 100, posted_replies := []
        next_id := 10 } :=
  cancel_affordance 1 [] 2 0 100 10
    [(200, OutEvent.cmd (OutputterCommand.Update ['h', 'i']))] _ [(200, false)]
    (by decide)

/-! ### Rate gate (claim C5) -/

theorem chain_le_drop_middle {a b : Nat} {l : List Nat}
    (h : List.Chain' (· ≤ ·) (a :: b :: l)) : List.Chain' (· ≤ ·) (a :: l) := by
  obtain ⟨hab, hbl⟩ := List.chain'_cons.mp h
  cases l with
  | nil => exact List.chain'_singleton a
  | cons c l2 =>
    obtain ⟨hbc, hcl⟩ := List.chain'_cons.mp hbl
    exact List.chain'_cons.mpr ⟨le_trans hab hbc, hcl⟩

theorem sync_time_fields (st st' : OutputterState)
    (heq : sync_messages_with_chunks st = some st') :
    st'.last_update = st.last_update ∧
    st'.last_update_duration = st.last_update_duration := by
  rw [sync_eq_createdStage] at heq
  rcases hcs : createdStage st with _ | ⟨msgs2, nid⟩
  · rw [hcs] at heq
    cases heq
  · rw [hcs] at heq
    cases msgs2 with
    | nil =>
      have heq1 : some { st with messages := ([] : List Msg), next_id := nid } = some st' :=
        heq
      rw [← Option.some.inj heq1]
      exact ⟨rfl, rfl⟩
    | cons m ms2 =>
      have heq1 : some { st with
          messages :=
            if st.in_terminal_state = true then m :: ms2
            else addCancelButton m.id st.user_id (m :: ms2)
          next_id := nid } = some st' := heq
      rw [← Option.some.inj heq1]
      exact ⟨rfl, rfl⟩

theorem on_error_time_fields (st : OutputterState) (e : Str) :
    (on_error st e).last_update = st.last_update ∧
    (on_error st e).last_update_duration = st.last_update_duration := by
  rw [on_error]
  by_cases h : (st.messages.map fun m =>
      { m with components := ([] : List Component)
             , content := '~' :: '~' :: (m.content ++ ['~', '~']) }).isEmpty
  · rw [if_pos h]
    exact ⟨rfl, rfl⟩
  · rw [if_neg h]
    exact ⟨rfl, rfl⟩

theorem flushAttachments_time_fields (st : OutputterState) :
    (flushAttachments st).last_update = st.last_update ∧
    (flushAttachments st).last_update_duration = st.last_update_duration := by
  rw [flushAttachments]
  by_cases hp : st.pending_attachments.isEmpty
  · rw [if_pos hp]
    exact ⟨rfl, rfl⟩
  · rw [if_neg hp]
    rcases hlast : st.messages.getLast? with _ | last
    · exact ⟨rfl, rfl⟩
    · exact ⟨rfl, rfl⟩

theorem finish_time_fields (st st' : OutputterState) (heq : finish st = some st') :
    st'.last_update = st.last_update ∧
    st'.last_update_duration = st.last_update_duration := by
  rw [finish] at heq
  rcases hs : sync_messages_with_chunks
      { st with messages := st.messages.map stripComponents
              , in_terminal_state := true } with _ | st2
  · rw [hs] at heq
    cases heq
  · rw [hs] at heq
    cases heq
    obtain ⟨h1, h2⟩ := sync_time_fields _ _ hs
    obtain ⟨f1, f2⟩ := flushAttachments_time_fields st2
    exact ⟨by rw [f1, h1], by rw [f2, h2]⟩

/-- The timing behaviour of one loop iteration: the rate-limit duration never
changes, and either no non-terminal sync is issued and the gate clock is
unchanged, or exactly one is issued at the event's arrival time, which is at
least one full interval after the previous gate time. -/
theorem stepOut_time_spec (st : OutputterState) (now : Nat) (ev : OutEvent)
    (st' : OutputterState) (recs : List (Nat × Bool))
    (heq : stepOut st (now, ev) = some (st', recs))
    (hle : st.last_update ≤ now) :
    st'.last_update_duration = st.last_update_duration ∧
    (((recs.filter (fun r => !r.2)).map Prod.fst = [] ∧
        st'.last_update = st.last_update) ∨
      ((recs.filter (fun r => !r.2)).map Prod.fst = [now] ∧
        st'.last_update = now ∧
        st.last_update + st.last_update_duration ≤ now)) := by
  have hsip : ∀ st0 : OutputterState,
      st0.last_update = st.last_update →
      st0.last_update_duration = st.last_update_duration →
      sync_if_pending now st0 = some (st', recs) →
      st'.last_update_duration = st.last_update_duration ∧
      (((recs.filter (fun r => !r.2)).map Prod.fst = [] ∧
          st'.last_update = st.last_update) ∨
        ((recs.filter (fun r => !r.2)).map Prod.fst = [now] ∧
          st'.last_update = now ∧
          st.last_update + st.last_update_duration ≤ now)) := by
    intro st0 hlu hdur heq0
    rw [sync_if_pending] at heq0
    by_cases ht : st0.in_terminal_state = true
    · rw [if_pos ht] at heq0
      cases heq0
      exact ⟨hdur, Or.inl ⟨rfl, hlu⟩⟩
    · rw [if_neg ht] at heq0
      by_cases hg : st0.last_update_duration ≤ now - st0.last_update
      · rw [if_pos hg] at heq0
        rcases hs : sync_messages_with_chunks st0 with _ | st2
        · rw [hs] at heq0
          cases heq0
        · rw [hs] at heq0
          cases heq0
          obtain ⟨hlu2, hdur2⟩ := sync_time_fields _ _ hs
          refine ⟨by rw [hdur2, hdur], Or.inr ⟨rfl, rfl, ?_⟩⟩
          rw [hlu, hdur] at hg
          omega
      · rw [if_neg hg] at heq0
        cases heq0
        exact ⟨hdur, Or.inl ⟨rfl, hlu⟩⟩
  cases ev with
  | tick => exact hsip st rfl rfl heq
  | cmd c =>
    cases c with
    | Update message =>
      exact hsip { st with chunks := chunk_message message MESSAGE_CHUNK_SIZE } rfl rfl heq
    | AddAttachment a =>
      cases heq
      exact ⟨rfl, Or.inl ⟨rfl, rfl⟩⟩
    | Error err =>
      cases heq
      obtain ⟨hlu, hdur⟩ := on_error_time_fields st err
      exact ⟨hdur, Or.inl ⟨rfl, hlu⟩⟩
    | Cancelled =>
      cases heq
      obtain ⟨hlu, hdur⟩ := on_error_time_fields st ("The generation was cancelled.".data)
      exact ⟨hdur, Or.inl ⟨rfl, hlu⟩⟩
    | Finish =>
      have heq0 : (match finish st with
          | none => (none : Option (OutputterState × List (Nat × Bool)))
          | some st2 => some (st2, [(now, true)])) = some (st', recs) := heq
      rcases hf : finish st with _ | st2
      · rw [hf] at heq0
        exact Option.noConfusion heq0
      · rw [hf] at heq0
        have heq1 : some (st2, [(now, true)]) = some (st', recs) := heq0
        have hst : st2 = st' := congrArg Prod.fst (Option.some.inj heq1)
        have hrecs : ([(now, true)] : List (Nat × Bool)) = recs :=
          congrArg Prod.snd (Option.some.inj heq1)
        obtain ⟨hlu, hdur⟩ := finish_time_fields st st2 hf
        rw [← hst, ← hrecs]
        exact ⟨hdur, Or.inl ⟨rfl, hlu⟩⟩

theorem stepOut_terminal_count (st : OutputterState) (now : Nat) (ev : OutEvent)
    (st' : OutputterState) (recs : List (Nat × Bool))
    (heq : stepOut st (now, ev) = some (st', recs)) :
    (recs.filter (fun r => r.2)).length =
      (if ev = OutEvent.cmd OutputterCommand.Finish then 1 else 0) := by
  have hsip : ∀ st0 : OutputterState, sync_if_pending now st0 = some (st', recs) →
      (recs.filter (fun r => r.2)).length = 0 := by
    intro st0 heq0
    rw [sync_if_pending] at heq0
    by_cases ht : st0.in_terminal_state = true
    · rw [if_pos ht] at heq0
      cases heq0
      rfl
    · rw [if_neg ht] at heq0
      by_cases hg : st0.last_update_duration ≤ now - st0.last_update
      · rw [if_pos hg] at heq0
        rcases hs : sync_messages_with_chunks st0 with _ | st2
        · rw [hs] at heq0
          cases heq0
        · rw [hs] at heq0
          cases heq0
          rfl
      · rw [if_neg hg] at heq0
        cases heq0
        rfl
  cases ev with
  | tick => exact hsip st heq
  | cmd c =>
    cases c with
    | Update message =>
      exact hsip { st with chunks := chunk_message message MESSAGE_CHUNK_SIZE } heq
    | AddAttachment a =>
      cases heq
      rfl
    | Error err =>
      cases heq
      rfl
    | Cancelled =>
      cases heq
      rfl
    | Finish =>
      have heq0 : (match finish st with
          | none => (none : Option (OutputterState × List (Nat × Bool)))
          | some st2 => some (st2, [(now, true)])) = some (st', recs) := heq
      rcases hf : finish st with _ | st2
      · rw [hf] at heq0
        exact Option.noConfusion heq0
      · rw [hf] at heq0
        have heq1 : some (st2, [(now, true)]) = some (st', recs) := heq0
        have hrecs : ([(now, true)] : List (Nat × Bool)) = recs :=
          congrArg Prod.snd (Option.some.inj heq1)
        rw [← hrecs, if_pos rfl]
        rfl

theorem runOut_gap : ∀ (cmds : List (Nat × OutEvent)) (st st' : OutputterState)
    (recs : List (Nat × Bool)),
    runOut st cmds = some (st', recs) →
    List.Chain' (· ≤ ·) (st.last_update :: cmds.map Prod.fst) →
    List.Chain' (fun a b => a + st.last_update_duration ≤ b)
      (st.last_update :: (recs.filter (fun r => !r.2)).map Prod.fst) ∧
    st'.last_update_duration = st.last_update_duration := by
  intro cmds
  induction cmds with
  | nil =>
    intro st st' recs heq _
    cases heq
    exact ⟨List.chain'_singleton _, rfl⟩
  | cons e es ih =>
    intro st st' recs heq hchain
    obtain ⟨now, ev⟩ := e
    rw [runOut] at heq
    rcases hs : stepOut st (now, ev) with _ | ⟨st1, recs1⟩
    · rw [hs] at heq
      cases heq
    · rw [hs] at heq
      have heq2 : (match runOut st1 es with
          | none => (none : Option (OutputterState × List (Nat × Bool)))
          | some (st2, recs2) => some (st2, recs1 ++ recs2)) = some (st', recs) := heq
      rcases hr : runOut st1 es with _ | ⟨st2, recs2⟩
      · rw [hr] at heq2
        exact Option.noConfusion heq2
      · rw [hr] at heq2
        have heq3 : some (st2, recs1 ++ recs2) = some (st', recs) := heq2
        have hst : st2 = st' := congrArg Prod.fst (Option.some.inj heq3)
        have hrecs : recs1 ++ recs2 = recs := congrArg Prod.snd (Option.some.inj heq3)
        have hle : st.last_update ≤ now := (List.chain'_cons.mp hchain).1
        have hchain2 : List.Chain' (· ≤ ·) (now :: es.map Prod.fst) := by
          have := (List.chain'_cons.mp hchain).2
          simpa using this
        obtain ⟨hdur1, hcase⟩ := stepOut_time_spec st now ev st1 recs1 hs hle
        rw [← hrecs, List.filter_append, List.map_append]
        rcases hcase with ⟨hemp, hlu1⟩ | ⟨hone, hlu1, hgap⟩
        · obtain ⟨c1, c2⟩ := ih st1 st2 recs2 hr (by
            rw [hlu1]
            exact chain_le_drop_middle hchain)
          rw [hemp, List.nil_append]
          rw [hlu1, hdur1] at c1
          refine ⟨c1, by rw [← hst, c2, hdur1]⟩
        · obtain ⟨c1, c2⟩ := ih st1 st2 recs2 hr (by rw [hlu1]; exact hchain2)
          rw [hone]
          rw [hlu1, hdur1] at c1
          refine ⟨List.chain'_cons.mpr ⟨hgap, c1⟩, ?_⟩
          rw [← hst, c2, hdur1]

theorem runOut_terminal_count : ∀ (cmds : List (Nat × OutEvent))
    (st st' : OutputterState) (recs : List (Nat × Bool)),
    runOut st cmds = some (st', recs) →
    (recs.filter (fun r => r.2)).length =
      (cmds.filter (fun e => e.2 == OutEvent.cmd OutputterCommand.Finish)).length := by
  intro cmds
  induction cmds with
  | nil =>
    intro st st' recs heq
    cases heq
    rfl
  | cons e es ih =>
    intro st st' recs heq
    obtain ⟨now, ev⟩ := e
    rw [runOut] at heq
    rcases hs : stepOut st (now, ev) with _ | ⟨st1, recs1⟩
    · rw [hs] at heq
      cases heq
    · rw [hs] at heq
      have heq2 : (match runOut st1 es with
          | none => (none : Option (OutputterState × List (Nat × Bool)))
          | some (st2, recs2) => some (st2, recs1 ++ recs2)) = some (st', recs) := heq
      rcases hr : runOut st1 es with _ | ⟨st2, recs2⟩
      · rw [hr] at heq2
        exact Option.noConfusion heq2
      · rw [hr] at heq2
        have heq3 : some (st2, recs1 ++ recs2) = some (st', recs) := heq2
        have hrecs : recs1 ++ recs2 = recs := congrArg Prod.snd (Option.some.inj heq3)
        rw [← hrecs, List.filter_append, List.length_append]
        rw [stepOut_terminal_count st now ev st1 recs1 hs, ih st1 st2 recs2 hr]
        by_cases hev : ev = OutEvent.cmd OutputterCommand.Finish
        · rw [if_pos hev]
          rw [List.filter_cons_of_pos (by simp [hev])]
          rw [List.length_cons]
          omega
        · rw [if_neg hev]
          rw [List.filter_cons_of_neg (by simp [hev])]
          omega

/-- C5: along any completed run of the outputter loop whose event times are
monotone, the non-terminal sync calls issued to the chat transport are
separated by at least the configured interval (so a burst of N events within
one interval yields at most one non-terminal sync), a sync being issued only
when at least the interval has elapsed since the last issued sync, while
every terminal flush (`finish`) issues its sync unconditionally, exactly one
per finish command. -/
theorem rate_gate (st : OutputterState) (cmds : List (Nat × OutEvent))
    (st' : OutputterState) (recs : List (Nat × Bool))
    (hmono : List.Chain' (· ≤ ·) (st.last_update :: cmds.map Prod.fst))
    (h : runOut st cmds = some (st', recs)) :
    List.Chain' (fun a b => a.1 + st.last_update_duration ≤ b.1)
      (recs.filter (fun r => !r.2)) ∧
    (recs.filter (fun r => r.2)).length =
      (cmds.filter (fun e => e.2 == OutEvent.cmd OutputterCommand.Finish)).length := by
  obtain ⟨hchain, _⟩ := runOut_gap cmds st st' recs h hmono
  refine ⟨?_, runOut_terminal_count cmds st st' recs h⟩
  have htail := hchain.tail
  simp only [List.tail_cons] at htail
  exact (List.chain'_map Prod.fst).mp htail

/-- C5 witness: a run with two rate-gated updates, one tick and one finish,
issuing one non-terminal sync and the terminal flush. -/
theorem rate_gate_witness :
    List.Chain' (fun a b => a.1 + (initOutputter 1 [] 2 0 100 10).last_update_duration ≤ b.1)
      (List.filter (fun r => !r.2) [((120 : Nat), false), ((400 : Nat), true)]) ∧
    (List.filter (fun r => r.2) [((120 : Nat), false), ((400 : Nat), true)]).length =
      (List.filter (fun e => e.2 == OutEvent.cmd OutputterCommand.Finish)
        [((50 : Nat), OutEvent.cmd (OutputterCommand.Update ['a'])),
         ((120 : Nat), OutEvent.tick),
         ((130 : Nat), OutEvent.cmd (OutputterCommand.Update ['b'])),
         ((400 : Nat), OutEvent.cmd OutputterCommand.Finish)]).length :=
  rate_gate (initOutputter 1 [] 2 0 100 10)
    [(50, OutEvent.cmd (OutputterCommand.Update ['a'])),
     (120, OutEvent.tick),
     (130, OutEvent.cmd (OutputterCommand.Update ['b'])),
     (400, OutEvent.cmd OutputterCommand.Finish)]
    { user_id := 2, messages := [⟨1, ['b'], [], []⟩], chunks := [['b']]
      pending_attachments := [], in_terminal_state := true, last_update := 120
      last_update_duration := 100, posted_replies := [], next_id := 10 }
    [(120, false), (400, true)]
    (List.Chain'.cons (by decide) (List.Chain'.cons (by decide)
      (List.Chain'.cons (by decide) (List.Chain'.cons (by decide)
        (List.chain'_singleton _)))))
    (by decide)

/-- C4 witness: `finish` applied twice at a concrete one-message state. -/
theorem finish_idempotent_witness :
    Outputter.finish
        { user_id := 2, messages := [⟨1, ['b'], [], []⟩], chunks := [['b']]
          pending_attachments := [], in_terminal_state := true, last_update := 0
          last_update_duration := 100, posted_replies := [], next_id := 5 } =
      some
        { user_id := 2, messages := [⟨1, ['b'], [], []⟩], chunks := [['b']]
          pending_attachments := [], in_terminal_state := true, last_update := 0
          last_update_duration := 100, posted_replies := [], next_id := 5 } :=
  finish_idempotent
    { user_id := 2, messages := [⟨1, ['a'], [], []⟩], chunks := [['b']]
      pending_attachments := [], in_terminal_state := false, last_update := 0
      last_update_duration := 100, posted_replies := [], next_id := 5 }
    _ (by decide)

end Outputter

end Paxcord

namespace Paxcord

/-! ### Supervisor-loop lemmas (claims C2 and C7) -/

theorem updatePayloads_append (l1 l2 : List OutputterCommand) :
    updatePayloads (l1 ++ l2) = updatePayloads l1 ++ updatePayloads l2 :=
  List.filterMap_append _ _ _

theorem lastUpdatePayload_update (l : List OutputterCommand) (m : Str) :
    lastUpdatePayload (l ++ [OutputterCommand.Update m]) = some m := by
  rw [lastUpdatePayload, updatePayloads_append]
  rw [show updatePayloads [OutputterCommand.Update m] = [m] from rfl]
  exact List.getLast?_concat _

theorem lastUpdatePayload_attachment (l : List OutputterCommand) (a : Attachment) :
    lastUpdatePayload (l ++ [OutputterCommand.AddAttachment a]) = lastUpdatePayload l := by
  rw [lastUpdatePayload, updatePayloads_append]
  rw [show updatePayloads [OutputterCommand.AddAttachment a] = [] from rfl]
  rw [List.append_nil]
  rfl

theorem lastUpdatePayload_finish (l : List OutputterCommand) :
    lastUpdatePayload (l ++ [OutputterCommand.Finish]) = lastUpdatePayload l := by
  rw [lastUpdatePayload, updatePayloads_append]
  rw [show updatePayloads [OutputterCommand.Finish] = [] from rfl]
  rw [List.append_nil]
  rfl

theorem cancelled_not_mem_append (l : List OutputterCommand) (c : OutputterCommand)
    (h : OutputterCommand.Cancelled ∉ l) (hc : c ≠ OutputterCommand.Cancelled) :
    OutputterCommand.Cancelled ∉ l ++ [c] := by
  intro hmem
  rcases List.mem_append.mp hmem with hmem' | hmem'
  · exact h hmem'
  · rw [List.mem_singleton] at hmem'
    exact hc hmem'.symm

/-- The characterization of the select loop over an exit-free schedule: it
does not exit, the error flag is unchanged, the output and captured thread
result are the folds of the schedule, the outgoing-content invariant is
preserved, and no `Cancelled` command is sent. -/
theorem execLoop_noBreak (anchor : Nat) : ∀ (pre : List LuaEvent) (st : ExecState),
    (∀ e ∈ pre, isBreakEvent e = false) →
    (execLoop anchor st pre).2 = false ∧
    (execLoop anchor st pre).1.errored = st.errored ∧
    (execLoop anchor st pre).1.output =
      pre.foldl (fun acc e => match e with | LuaEvent.outputEv v => v | _ => acc)
        st.output ∧
    (execLoop anchor st pre).1.thread_result =
      pre.foldl (fun acc e => match e with | LuaEvent.threadOk (some v) => some v | _ => acc)
        st.thread_result ∧
    (updInv st → updInv (execLoop anchor st pre).1) ∧
    (OutputterCommand.Cancelled ∉ st.sent →
      OutputterCommand.Cancelled ∉ (execLoop anchor st pre).1.sent) := by
  intro pre
  induction pre with
  | nil =>
    intro st _
    exact ⟨rfl, rfl, rfl, rfl, fun h => h, fun h => h⟩
  | cons e es ih =>
    intro st hpre
    have he : isBreakEvent e = false := hpre e (List.mem_cons_self _ _)
    have hes : ∀ e' ∈ es, isBreakEvent e' = false :=
      fun e' he' => hpre e' (List.mem_cons_of_mem _ he')
    cases e with
    | cancel cid => cases he
    | threadErr err => cases he
    | threadDone => cases he
    | outputEv v =>
      have hstep : execLoop anchor st (LuaEvent.outputEv v :: es) =
          execLoop anchor
            { st with output := v
                    , sent := st.sent ++
                        [OutputterCommand.Update (to_final_output v st.print_log)] } es := rfl
      rw [hstep]
      obtain ⟨c1, c2, c3, c4, c5, c6⟩ := ih _ hes
      refine ⟨c1, c2, by rw [List.foldl_cons]; exact c3, by rw [List.foldl_cons]; exact c4, ?_, ?_⟩
      · intro _
        refine c5 ?_
        exact Or.inl (lastUpdatePayload_update _ _)
      · intro hmem
        refine c6 ?_
        exact cancelled_not_mem_append _ _ hmem (by intro hcon; cases hcon)
    | printEv v =>
      have hstep : execLoop anchor st (LuaEvent.printEv v :: es) =
          execLoop anchor
            { st with print_log := st.print_log ++ [v]
                    , sent := st.sent ++
                        [OutputterCommand.Update
                          (to_final_output st.output (st.print_log ++ [v]))] } es := rfl
      rw [hstep]
      obtain ⟨c1, c2, c3, c4, c5, c6⟩ := ih _ hes
      refine ⟨c1, c2, by rw [List.foldl_cons]; exact c3, by rw [List.foldl_cons]; exact c4, ?_, ?_⟩
      · intro _
        refine c5 ?_
        exact Or.inl (lastUpdatePayload_update _ _)
      · intro hmem
        refine c6 ?_
        exact cancelled_not_mem_append _ _ hmem (by intro hcon; cases hcon)
    | attachmentEv a =>
      have hstep : execLoop anchor st (LuaEvent.attachmentEv a :: es) =
          execLoop anchor
            { st with sent := st.sent ++ [OutputterCommand.AddAttachment a] } es := rfl
      rw [hstep]
      obtain ⟨c1, c2, c3, c4, c5, c6⟩ := ih _ hes
      refine ⟨c1, c2, by rw [List.foldl_cons]; exact c3, by rw [List.foldl_cons]; exact c4, ?_, ?_⟩
      · intro hinv
        refine c5 ?_
        rcases hinv with hinv | ⟨hnone, ho, hp⟩
        · exact Or.inl (by rw [lastUpdatePayload_attachment]; exact hinv)
        · exact Or.inr ⟨by rw [lastUpdatePayload_attachment]; exact hnone, ho, hp⟩
      · intro hmem
        refine c6 ?_
        exact cancelled_not_mem_append _ _ hmem (by intro hcon; cases hcon)
    | threadOk r =>
      cases r with
      | some v =>
        have hstep : execLoop anchor st (LuaEvent.threadOk (some v) :: es) =
            execLoop anchor
              { st with thread_result := some v
                      , sent := st.sent ++
                          [OutputterCommand.Update
                            (to_final_output st.output st.print_log)] } es := rfl
        rw [hstep]
        obtain ⟨c1, c2, c3, c4, c5, c6⟩ := ih _ hes
        refine ⟨c1, c2, by rw [List.foldl_cons]; exact c3, by rw [List.foldl_cons]; exact c4, ?_, ?_⟩
        · intro _
          refine c5 ?_
          exact Or.inl (lastUpdatePayload_update _ _)
        · intro hmem
          refine c6 ?_
          exact cancelled_not_mem_append _ _ hmem (by intro hcon; cases hcon)
      | none =>
        have hstep : execLoop anchor st (LuaEvent.threadOk none :: es) =
            execLoop anchor
              { st with sent := st.sent ++
                  [OutputterCommand.Update
                    (to_final_output st.output st.print_log)] } es := rfl
        rw [hstep]
        obtain ⟨c1, c2, c3, c4, c5, c6⟩ := ih _ hes
        refine ⟨c1, c2, by rw [List.foldl_cons]; exact c3, by rw [List.foldl_cons]; exact c4, ?_, ?_⟩
        · intro _
          refine c5 ?_
          exact Or.inl (lastUpdatePayload_update _ _)
        · intro hmem
          refine c6 ?_
          exact cancelled_not_mem_append _ _ hmem (by intro hcon; cases hcon)

theorem execLoop_append (anchor : Nat) : ∀ (pre : List LuaEvent) (st : ExecState)
    (rest : List LuaEvent),
    (∀ e ∈ pre, isBreakEvent e = false) →
    execLoop anchor st (pre ++ rest) =
      execLoop anchor (execLoop anchor st pre).1 rest := by
  intro pre
  induction pre with
  | nil => intro st rest _; rfl
  | cons e es ih =>
    intro st rest hpre
    have he : isBreakEvent e = false := hpre e (List.mem_cons_self _ _)
    have hes : ∀ e' ∈ es, isBreakEvent e' = false :=
      fun e' he' => hpre e' (List.mem_cons_of_mem _ he')
    cases e with
    | cancel cid => cases he
    | threadErr err => cases he
    | threadDone => cases he
    | outputEv v => exact ih _ rest hes
    | printEv v => exact ih _ rest hes
    | attachmentEv a => exact ih _ rest hes
    | threadOk r => cases r <;> exact ih _ rest hes

theorem execFinalize_spec (st : ExecState) (h : st.errored = false) :
    (execFinalize st).errored = false ∧
    (execFinalize st).output =
      (if st.output.isEmpty then st.thread_result.getD st.output else st.output) ∧
    (updInv st → updInv (execFinalize st)) ∧
    (OutputterCommand.Cancelled ∉ st.sent →
      OutputterCommand.Cancelled ∉ (execFinalize st).sent) := by
  rw [execFinalize, if_neg (by rw [h]; intro hcon; cases hcon)]
  by_cases ho : st.output.isEmpty
  · rw [if_pos ho]
    rcases hr : st.thread_result with _ | r
    · refine ⟨h, by rw [if_pos ho]; rfl, ?_, ?_⟩
      · intro hinv
        rcases hinv with hinv | ⟨hnone, ho2, hp⟩
        · exact Or.inl (by rw [lastUpdatePayload_finish]; exact hinv)
        · exact Or.inr ⟨by rw [lastUpdatePayload_finish]; exact hnone, ho2, hp⟩
      · intro hmem
        exact cancelled_not_mem_append _ _ hmem (by intro hcon; cases hcon)
    · refine ⟨h, by rw [if_pos ho]; rfl, ?_, ?_⟩
      · intro _
        refine Or.inl ?_
        rw [lastUpdatePayload_finish]
        exact lastUpdatePayload_update _ _
      · intro hmem
        refine cancelled_not_mem_append _ _ ?_ (by intro hcon; cases hcon)
        exact cancelled_not_mem_append _ _ hmem (by intro hcon; cases hcon)
  · rw [if_neg ho]
    refine ⟨h, by rw [if_neg ho], ?_, ?_⟩
    · intro hinv
      rcases hinv with hinv | ⟨hnone, ho2, hp⟩
      · exact Or.inl (by rw [lastUpdatePayload_finish]; exact hinv)
      · exact Or.inr ⟨by rw [lastUpdatePayload_finish]; exact hnone, ho2, hp⟩
    · intro hmem
      exact cancelled_not_mem_append _ _ hmem (by intro hcon; cases hcon)

/-- C2 counterexample: a run that emits `Output("partial")` and then completes
successfully with return value `"final"` renders `"partial"`, not the return
value — the return value is only adopted when the primary output is empty. -/
theorem c2_return_value_counterexample :
    (executeRun 0 [LuaEvent.outputEv ("partial".data),
      LuaEvent.threadOk (some ("final".data)), LuaEvent.threadDone]).output ≠
      "final".data := by
  decide

/-- C2 (amended): for every exit-free event schedule followed by successful
completion, the run does not error and the final primary output is the last
explicitly set output when that is non-empty, and otherwise the thread's
captured return value (if any) — the return value is adopted exactly when the
primary output is empty at completion; moreover the content carried by the
last `Update` command sent to the outputter is the render of that final
state, unless no update was ever sent. -/
theorem output_adoption (anchor : Nat) (pre : List LuaEvent)
    (hpre : ∀ e ∈ pre, isBreakEvent e = false) :
    (executeRun anchor (pre ++ [LuaEvent.threadDone])).errored = false ∧
    (executeRun anchor (pre ++ [LuaEvent.threadDone])).output =
      (if (lastOutputPayload pre).isEmpty then
        (lastThreadResult pre).getD (lastOutputPayload pre)
      else lastOutputPayload pre) ∧
    (lastUpdatePayload (executeRun anchor (pre ++ [LuaEvent.threadDone])).sent = none ∨
      lastUpdatePayload (executeRun anchor (pre ++ [LuaEvent.threadDone])).sent =
        some (executeRun anchor (pre ++ [LuaEvent.threadDone])).render) := by
  have hrun : executeRun anchor (pre ++ [LuaEvent.threadDone]) =
      execFinalize (execLoop anchor initExec pre).1 := by
    rw [executeRun, execLoop_append anchor pre initExec [LuaEvent.threadDone] hpre]
    rfl
  obtain ⟨_, c2, c3, c4, c5, _⟩ := execLoop_noBreak anchor pre initExec hpre
  have herr : (execLoop anchor initExec pre).1.errored = false := c2
  have hout : (execLoop anchor initExec pre).1.output = lastOutputPayload pre := c3
  have hres : (execLoop anchor initExec pre).1.thread_result = lastThreadResult pre := c4
  have hinv : updInv (execLoop anchor initExec pre).1 :=
    c5 (Or.inr ⟨rfl, rfl, rfl⟩)
  obtain ⟨f1, f2, f3, _⟩ := execFinalize_spec _ herr
  rw [hrun]
  refine ⟨f1, ?_, ?_⟩
  · rw [f2, hout, hres]
  · rcases f3 hinv with hsome | ⟨hnone, _, _⟩
    · exact Or.inr hsome
    · exact Or.inl hnone

/-- C2 witness: the adoption rule at the schedule that outputs "p" and then
returns "f": the final output is "p". -/
theorem output_adoption_witness :
    (executeRun 0 ([LuaEvent.outputEv ['p'], LuaEvent.threadOk (some ['f'])] ++
      [LuaEvent.threadDone])).errored = false ∧
    (executeRun 0 ([LuaEvent.outputEv ['p'], LuaEvent.threadOk (some ['f'])] ++
      [LuaEvent.threadDone])).output =
      (if (lastOutputPayload [LuaEvent.outputEv ['p'],
          LuaEvent.threadOk (some ['f'])]).isEmpty then
        (lastThreadResult [LuaEvent.outputEv ['p'], LuaEvent.threadOk (some ['f'])]).getD
          (lastOutputPayload [LuaEvent.outputEv ['p'], LuaEvent.threadOk (some ['f'])])
      else lastOutputPayload [LuaEvent.outputEv ['p'], LuaEvent.threadOk (some ['f'])]) ∧
    (lastUpdatePayload (executeRun 0 ([LuaEvent.outputEv ['p'],
        LuaEvent.threadOk (some ['f'])] ++ [LuaEvent.threadDone])).sent = none ∨
      lastUpdatePayload (executeRun 0 ([LuaEvent.outputEv ['p'],
        LuaEvent.threadOk (some ['f'])] ++ [LuaEvent.threadDone])).sent =
        some (executeRun 0 ([LuaEvent.outputEv ['p'],
          LuaEvent.threadOk (some ['f'])] ++ [LuaEvent.threadDone])).render) :=
  output_adoption 0 [LuaEvent.outputEv ['p'], LuaEvent.threadOk (some ['f'])]
    (by decide)

/-- C7: a cancel event whose anchor differs from the session's anchor makes
the supervisor loop take its secondary branch: it stops consuming events
(everything after the mismatched cancel is ignored), never sends the
`Cancelled` command that triggers the cancelled-render terminal path, and
leaves the error flag unset, so the loop falls through to the normal finish
path rather than the strike-through-plus-notice render. -/
theorem cancel_mismatch_secondary (anchor : Nat) (pre post : List LuaEvent)
    (cid : Nat) (hpre : ∀ e ∈ pre, isBreakEvent e = false) (hcid : cid ≠ anchor) :
    executeRun anchor (pre ++ LuaEvent.cancel cid :: post) =
      executeRun anchor (pre ++ [LuaEvent.cancel cid]) ∧
    OutputterCommand.Cancelled ∉
      (executeRun anchor (pre ++ LuaEvent.cancel cid :: post)).sent ∧
    (executeRun anchor (pre ++ LuaEvent.cancel cid :: post)).errored = false := by
  obtain ⟨_, c2, _, _, _, c6⟩ := execLoop_noBreak anchor pre initExec hpre
  have hstep : ∀ rest : List LuaEvent,
      execLoop anchor (execLoop anchor initExec pre).1 (LuaEvent.cancel cid :: rest) =
        ((execLoop anchor initExec pre).1, true) := by
    intro rest
    show (let p := execStep anchor (execLoop anchor initExec pre).1 (LuaEvent.cancel cid)
      if p.2 then (p.1, true)
      else execLoop anchor p.1 rest) = _
    rw [show execStep anchor (execLoop anchor initExec pre).1 (LuaEvent.cancel cid) =
      ((execLoop anchor initExec pre).1, true) from by
        rw [execStep, if_neg hcid]]
    rfl
  have hrun1 : executeRun anchor (pre ++ LuaEvent.cancel cid :: post) =
      execFinalize (execLoop anchor initExec pre).1 := by
    rw [executeRun, execLoop_append anchor pre initExec _ hpre, hstep post]
    rfl
  have hrun2 : executeRun anchor (pre ++ [LuaEvent.cancel cid]) =
      execFinalize (execLoop anchor initExec pre).1 := by
    rw [executeRun, execLoop_append anchor pre initExec _ hpre, hstep []]
    rfl

  obtain ⟨f1, _, _, f4⟩ := execFinalize_spec _ c2
  refine ⟨by rw [hrun1, hrun2], ?_, ?_⟩
  · rw [hrun1]
    exact f4 (c6 (fun hmem => absurd hmem (List.not_mem_nil _)))
  · rw [hrun1]
    exact f1

/-- C7 witness: a mismatched cancel (anchor 7, event 8) followed by a further
output event takes the secondary branch and ignores the rest of the
schedule. -/
theorem cancel_mismatch_secondary_witness :
    executeRun 7 ([] ++ LuaEvent.cancel 8 :: [LuaEvent.outputEv ['x']]) =
      executeRun 7 ([] ++ [LuaEvent.cancel 8]) ∧
    OutputterCommand.Cancelled ∉
      (executeRun 7 ([] ++ LuaEvent.cancel 8 :: [LuaEvent.outputEv ['x']])).sent ∧
    (executeRun 7 ([] ++ LuaEvent.cancel 8 :: [LuaEvent.outputEv ['x']])).errored = false :=
  cancel_mismatch_secondary 7 [] [LuaEvent.outputEv ['x']] 8
    (by intro e he; cases he) (by decide)

end Paxcord
